import Mathlib

/-!
Verification of the SmartSort analysis pipeline (backend of hackMIT2025_SmartSort)
against its natural-language specification.

The Python sources are shallowly embedded as executable Lean definitions:

* machine integers become Nat / Int (no overflow is possible at the sizes involved);
* Python floats become exact rationals; every claim settled here depends only on
  comparisons and exact dyadic values that the float computation also realises;
* hashlib digests (md5, sha256) are modelled as injective wrappers around the exact
  byte/character stream that the source feeds into the hash object -- two digests are
  equal in the model exactly when the hashed streams are equal;
* filesystem access is passed in explicitly (a map from paths to optional
  content or stat data); code that raises returns an Except value;
* dictionaries keyed in insertion order become association lists built in the
  same order.

Sources embedded: backend/classifier.py, backend/data_cleaner.py,
backend/database_manager.py, backend/file_analyzer.py, and the parts of the
Python standard library difflib.SequenceMatcher (with isjunk = None) that
data_cleaner.py calls.
-/

namespace SmartSort

/-! ### Small string and byte utilities -/
/-- Character of a list at an index, total (out of range yields the NUL char).
Every use below is guarded so that the default is never compared against real data. -/
def charAt (l : List Char) (i : Nat) : Char := l.getD i (Char.ofNat 0)

/-- Boolean test that the first list is a prefix of the second. -/
def leadsWith : List Char → List Char → Bool
  | [], _ => true
  | _ :: _, [] => false
  | c :: cs, d :: ds => c = d && leadsWith cs ds

/-- Python substring containment: pat occurs contiguously in hay (the in operator). -/
def containsSub (hay pat : List Char) : Bool :=
  match hay with
  | [] => pat.isEmpty
  | _ :: t => leadsWith pat hay || containsSub t pat

/-- Python str.lower restricted to the ASCII data this program handles. -/
def lowerStr (s : String) : String := String.mk (s.toList.map Char.toLower)

/-- Model of an md5 digest: the injective image of the byte stream that was hashed.
Bytes are Nat values below 256. -/
structure MD5 where
  input : List Nat
deriving DecidableEq

/-- hashlib.md5(bs).hexdigest() modelled as the ideal (injective) hash of bs. -/
def md5 (bs : List Nat) : MD5 := ⟨bs⟩

/-- Model of a sha256 digest over the concatenated update() strings. -/
structure SHA256 where
  input : String
deriving DecidableEq

/-- UTF-8 encoding of a string; all strings hashed by this program are ASCII, where
the code units coincide with the code points. -/
def strBytes (s : String) : List Nat := s.toList.map Char.toNat

/-- Lowercase hex digit for a value below 16. -/
def hexDigit (n : Nat) : Char :=
  if n < 10 then Char.ofNat (48 + n) else Char.ofNat (87 + n)

/-- Python bytes.hex(): two lowercase hex digits per byte. -/
def bytesHex (bs : List Nat) : String :=
  String.mk (bs.foldr (fun b acc => hexDigit (b / 16) :: hexDigit (b % 16) :: acc) [])

/-! ### classifier.py: classify_file -/
/-- One entry of the classification table in classify_file. -/
structure Category where
  name : String
  keywords : List String
  extensions : List String

/-- The categories dict of classify_file, in declaration order (which is the
iteration order of a Python dict). -/
def categories : List Category :=
  [ ⟨("school"),
      [("homework"), ("assignment"), ("essay"), ("study"), ("notes"), ("midterm"), ("final"), ("quiz")],
      [(".pdf"), (".docx"), (".txt")]⟩,
    ⟨("work"),
      [("meeting"), ("presentation"), ("report"), ("proposal"), ("contract"), ("budget")],
      [(".pptx"), (".xlsx"), (".pdf"), (".docx")]⟩,
    ⟨("financial"),
      [("invoice"), ("receipt"), ("bill"), ("tax"), ("statement"), ("payment"), ("bank")],
      [(".pdf"), (".jpg"), (".png")]⟩,
    ⟨("personal"),
      [("vacation"), ("family"), ("birthday"), ("wedding"), ("photo"), ("memory")],
      [(".jpg"), (".png"), (".mp4"), (".mov")]⟩,
    ⟨("media"),
      [("photo"), ("video"), ("music"), ("image"), ("screenshot")],
      [(".jpg"), (".png"), (".mp4"), (".mp3"), (".mov"), (".avi")]⟩,
    ⟨("code"),
      [("script"), ("app"), ("main"), ("index"), ("component")],
      [(".py"), (".js"), (".html"), (".css"), (".java"), (".cpp")]⟩ ]

/-- Per-category score: 2 points per keyword occurring in the lowercased filename,
1 point if the extension is in the allow-list. -/
def category_score (filename_lower : List Char) (extension : String) (c : Category) : Nat :=
  2 * (c.keywords.filter (fun kw => containsSub filename_lower kw.toList)).length +
    (if extension ∈ c.extensions then 1 else 0)

/-- Python max(scores, key=scores.get): the first key attaining the maximal value. -/
def argmaxKey (l : List (String × Nat)) : String :=
  match l with
  | [] => ("")
  | x :: xs => (xs.foldl (fun best y => if best.2 < y.2 then y else best) x).1

/-- Lookup in an association list (Python dict subscript; None models KeyError). -/
def dict_get : List (String × Nat) → String → Option Nat
  | [], _ => none
  | (k, v) :: rest, key => if k = key then some v else dict_get rest key

/-- Result dict of classify_file. -/
structure ClassifyResult where
  category : String
  confidence : ℚ
  scores : List (String × Nat)
deriving DecidableEq

/-- classifier.classify_file, taking the already-derived basename and lowercased
suffix.  The dict subscript scores[best_category] raises KeyError when
best_category is the string uncategorized, which is not a key of scores; the
error branch models that exception. -/
def classify_file (filename extension : String) : Except String ClassifyResult :=
  let fl := (lowerStr filename).toList
  let scores := categories.map (fun c => (c.name, category_score fl extension c))
  let maxVal := (scores.map (fun s => s.2)).foldl Nat.max 0
  let best := if 0 < maxVal then argmaxKey scores else ("uncategorized")
  match dict_get scores best with
  | none => Except.error ("KeyError: uncategorized")
  | some sc => Except.ok ⟨best, min ((sc : ℚ) / 3) 1, scores⟩

/-! ### database_manager.py: save_analysis performance metrics -/
/-- The performance_metrics payload persisted by save_analysis. -/
structure SessionMetrics where
  cache_hits : ℕ
  cache_misses : ℤ
  cache_hit_rate : ℚ
deriving DecidableEq

/-- Rounding to two decimal places (Python round(x, 2); the model rounds the exact
rational; no claim below depends on the tie-breaking of float rounding). -/
def roundTo2 (q : ℚ) : ℚ := ((round (q * 100) : ℤ) : ℚ) / 100

/-- The metrics computed inside save_analysis from files_processed and the value r
returned by random.randint(0, max(1, files_processed // 2)).  The random draw is
the only input: no datum about the actual cache activity of the run reaches this
computation. -/
def save_analysis_metrics (files_processed : ℕ) (r : ℕ) : SessionMetrics :=
  ⟨r, (files_processed : ℤ) - (r : ℤ),
    roundTo2 ((r : ℚ) / ((max 1 files_processed : ℕ) : ℚ) * 100)⟩

/-! ### database_manager.py: the per-file cache -/
/-- The stat data _file_hash reads: st_mtime as rendered by Python str() (only the
rendered form ever reaches the hash), and st_size. -/
structure FileStat where
  st_mtime : String
  st_size : Nat
deriving DecidableEq

/-- The byte stream fed to the sha256 object in _file_hash:
h.update(str(st_mtime)); h.update(str(st_size)) hashes the bare concatenation. -/
def file_hash_input (st : FileStat) : String := st.st_mtime ++ toString st.st_size

/-- database_manager._file_hash on the stat of an existing file. -/
def file_hash (st : FileStat) : SHA256 := ⟨file_hash_input st⟩

/-- One row of the file_cache table.  The result column stores json.dumps of the
analysis payload; the model keeps the payload abstract (round-tripping through
json is the identity on the JSON-safe dicts this program stores). -/
structure CacheRow (R : Type) where
  filepath : String
  filehash : SHA256
  result : R
  session_id : String
  timestamp : Nat

/-- The file_cache table, rows in insertion (rowid) order. -/
structure DB (R : Type) where
  rows : List (CacheRow R)

/-- The empty database. -/
def emptyDB (R : Type) : DB R := ⟨[]⟩

/-- SELECT result FROM file_cache WHERE filepath=? AND filehash=?
ORDER BY timestamp DESC LIMIT 1.  save_file_result stamps rows with a strictly
increasing logical clock, so the most recent timestamp among the matching rows is
realised by the last matching row in insertion order. -/
def latest_match (db : DB R) (fp : String) (fh : SHA256) : Option R :=
  ((db.rows.filter (fun row => decide (row.filepath = fp ∧ row.filehash = fh))).getLast?).map
    (fun row => row.result)

/-- database_manager.get_cached_file.  It first calls os.stat on the path
(_file_hash), which raises OSError / FileNotFoundError when the file cannot be
stat-ed; only then does it query the table. -/
def get_cached_file (fs : String → Option FileStat) (db : DB R) (filepath : String) :
    Except String (Option R) :=
  match fs filepath with
  | none => Except.error ("FileNotFoundError")
  | some st => Except.ok (latest_match db filepath (file_hash st))

/-- database_manager.save_file_result: INSERT a fresh row (never an update).
It also stats the file first, and so also raises if the file has vanished. -/
def save_file_result (fs : String → Option FileStat) (db : DB R) (filepath : String)
    (result : R) (session_id : String) : Except String (DB R) :=
  match fs filepath with
  | none => Except.error ("FileNotFoundError")
  | some st =>
      Except.ok ⟨db.rows ++ [⟨filepath, file_hash st, result, session_id, db.rows.length⟩]⟩

/-! ### file_analyzer.py: _generate_similarity_hash -/
/-- file_analyzer._generate_similarity_hash.  The file content is passed as an
optional byte list: none models a file that cannot be opened or read, in which
case the except-branch returns the fallback digest of path:size.  For readable
content the policy branches on the file_size argument (the st_size the caller
passes). -/
def generate_similarity_hash (content : Option (List Nat)) (file_path : String)
    (file_size : Nat) : MD5 :=
  match content with
  | some data =>
      if file_size < 1024 * 1024 then
        md5 data
      else
        md5 (strBytes (toString file_size ++ (":") ++ bytesHex (data.take 8192) ++ (":") ++
          bytesHex (data.drop (data.length - 8192))))
  | none => md5 (strBytes (file_path ++ (":") ++ toString file_size))

/-- The fingerprint contract as the specification states it (section 4.1): fails
with IOError if the file cannot be opened.  Written from the words of the spec,
for comparison with generate_similarity_hash, which is written from the source. -/
def fingerprint_spec (content : Option (List Nat)) (file_path : String)
    (file_size : Nat) : Except String MD5 :=
  match content with
  | none => Except.error ("IOError")
  | some data => Except.ok (generate_similarity_hash (some data) file_path file_size)

/-! ### data_cleaner.py: exact-duplicate grouping -/
/-- The fields of a per-file result dict that the data cleaner reads.
naming_score is the value under naming_analysis (0 when absent). -/
structure CFile where
  filename : String
  size : Nat
  modified : ℚ
  extension : String
  content_text : String
  similarity_hash : Option MD5
  naming_score : ℚ
deriving DecidableEq

/-- data_cleaner.DuplicateGroup for the exact pass (hash_signature is the raw
similarity hash of the bucket). -/
structure DuplicateGroup where
  hash_signature : MD5
  files : List CFile
  duplicate_type : String
  confidence : ℚ
  recommended_action : String
deriving DecidableEq

/-- Append a file to the bucket of its hash inside an association list, keeping
first-occurrence bucket order (Python defaultdict(list) iterated in insertion
order). -/
def insertBucket (acc : List (MD5 × List CFile)) (h : MD5) (f : CFile) :
    List (MD5 × List CFile) :=
  match acc with
  | [] => [(h, [f])]
  | (h0, fs) :: rest =>
      if h0 = h then (h0, fs ++ [f]) :: rest else (h0, fs) :: insertBucket rest h f

/-- The hash_groups loop of _find_exact_duplicates: bucket records by
similarity_hash, skipping records without one. -/
def hash_groups (files : List CFile) : List (MD5 × List CFile) :=
  files.foldl
    (fun acc f =>
      match f.similarity_hash with
      | none => acc
      | some h => insertBucket acc h f)
    []

/-- Same bucketing keyed by size, for _verify_duplicates. -/
def insertSizeBucket (acc : List (Nat × List CFile)) (s : Nat) (f : CFile) :
    List (Nat × List CFile) :=
  match acc with
  | [] => [(s, [f])]
  | (s0, fs) :: rest =>
      if s0 = s then (s0, fs ++ [f]) :: rest else (s0, fs) :: insertSizeBucket rest s f

/-- Group a bucket by size, in first-occurrence order. -/
def size_groups (files : List CFile) : List (Nat × List CFile) :=
  files.foldl (fun acc f => insertSizeBucket acc f.size f) []

/-- data_cleaner._verify_duplicates: group the bucket by size and concatenate the
members of every size group that has more than one member.  (Note that the size
groups are flattened back into one list.) -/
def verify_duplicates (file_list : List CFile) : List CFile :=
  if file_list.length ≤ 1 then file_list
  else
    ((size_groups file_list).filter (fun g => 1 < g.2.length)).foldl
      (fun acc g => acc ++ g.2) []

/-- The first file attaining the maximal modified timestamp (Python stable
sorted(..., reverse=True) followed by taking element 0). -/
def newest_file (l : List CFile) (d : CFile) : CFile :=
  match l with
  | [] => d
  | x :: xs => xs.foldl (fun best f => if best.modified < f.modified then f else best) x

/-- data_cleaner._recommend_duplicate_action. -/
def recommend_duplicate_action (duplicates : List CFile) : String :=
  if duplicates.length ≤ 1 then ("no_action")
  else
    match duplicates.find? (fun f => decide ((70 : ℚ) < f.naming_score)) with
    | some f => ("keep_best_named: ") ++ f.filename
    | none => ("keep_newest: ") ++ (newest_file duplicates (CFile.mk ("") 0 0 ("") ("") none 0)).filename

/-- data_cleaner._find_exact_duplicates: for every similarity-hash bucket with
more than one member, run _verify_duplicates; when more than one member survives,
emit a single exact DuplicateGroup with confidence 1.0 over all survivors. -/
def find_exact_duplicates (files : List CFile) : List DuplicateGroup :=
  (hash_groups files).foldl
    (fun acc g =>
      if 1 < g.2.length then
        let verified := verify_duplicates g.2
        if 1 < verified.length then
          acc ++ [⟨g.1, verified, ("exact"), 1, recommend_duplicate_action verified⟩]
        else acc
      else acc)
    []

/-! ### file_analyzer.py: discovery, chunking and the chunk loop -/
/-- Stable insertion into a size-descending list: the inserted element precedes
strictly smaller sizes and follows greater-or-equal ones.  Used from foldr this
reproduces Python sorted(key=size, reverse=True), which is stable. -/
def insert_desc (x : String × Nat) : List (String × Nat) → List (String × Nat)
  | [] => [x]
  | y :: ys => if y.2 ≤ x.2 then x :: y :: ys else y :: insert_desc x ys

/-- The sort at the end of _get_files_with_metadata (discovery itself is passed
in as the walk list of path-size pairs; os.walk of a nonexistent or unreadable
directory yields no entries). -/
def sort_by_size_desc (l : List (String × Nat)) : List (String × Nat) :=
  l.foldr insert_desc []

/-- The loop body of _create_optimized_chunks: flush the current chunk (when it
has reached the file-count bound or the cumulative-size threshold) and start a
new one, or append to it.  The state is (chunks, current_chunk, current_size). -/
def chunk_step (chunk_size : Nat) (size_threshold : ℚ)
    (st : List (List String) × List String × ℕ) (fd : String × Nat) :
    List (List String) × List String × ℕ :=
  if chunk_size ≤ st.2.1.length ∨ size_threshold ≤ (st.2.2 : ℚ) then
    ((if st.2.1.isEmpty then st.1 else st.1 ++ [st.2.1]), [fd.1], fd.2)
  else (st.1, st.2.1 ++ [fd.1], st.2.2 + fd.2)

/-- file_analyzer._create_optimized_chunks.  The size threshold is the Python
float division total / (n // chunk_size + 1), modelled exactly in ℚ. -/
def create_optimized_chunks (chunk_size : Nat) (file_data : List (String × Nat)) :
    List (List String) :=
  if file_data.length ≤ chunk_size then [file_data.map (fun fd => fd.1)]
  else
    let total : ℚ := ((file_data.map (fun fd => fd.2)).sum : ℕ)
    let size_threshold : ℚ := total / ((file_data.length / chunk_size + 1 : ℕ) : ℚ)
    let final := file_data.foldl (chunk_step chunk_size size_threshold) ([], [], 0)
    if final.2.1.isEmpty then final.1 else final.1 ++ [final.2.1]

/-- file_analyzer._process_chunk.  It opens
ThreadPoolExecutor(max_workers=min(4, len(file_chunk))), which raises
ValueError for an empty chunk; otherwise every file of the chunk yields exactly
one result dict (analyze_single_file_advanced returns a non-empty dict on every
path, including its error path), collected here in submission order (the claims
below do not depend on the as_completed arrival order). -/
def process_chunk (analyze : String → α) (file_chunk : List String) :
    Except String (List α) :=
  if file_chunk.length = 0 then
    Except.error ("ValueError: max_workers must be greater than 0")
  else Except.ok (file_chunk.map analyze)

/-- The sequential chunk loop of analyze_directory: process each chunk in turn and
extend the aggregate; an exception escapes the whole call. -/
def run_chunks (analyze : String → α) : List (List String) → Except String (List α)
  | [] => Except.ok []
  | c :: cs =>
      match process_chunk analyze c with
      | Except.error e => Except.error e
      | Except.ok rs =>
          match run_chunks analyze cs with
          | Except.error e => Except.error e
          | Except.ok rest => Except.ok (rs ++ rest)

/-- file_analyzer.analyze_directory up to the aggregation of per-file records:
discovery (walk passed in), size sort, chunking, then the chunk loop.  The
session summary is built only after this aggregate exists, so an error here
produces no session. -/
def analyze_directory (analyze : String → α) (chunk_size : Nat)
    (walk : List (String × Nat)) : Except String (List α) :=
  run_chunks analyze (create_optimized_chunks chunk_size (sort_by_size_desc walk))

/-! ### difflib.SequenceMatcher with isjunk = None, as called by data_cleaner

data_cleaner._calculate_file_similarity calls
difflib.SequenceMatcher(None, x, y).ratio().  The embedding below follows
cpython difflib.py: __chain_b builds b2j and deletes the popular entries
(autojunk, active when len(b) >= 200); isjunk is None at every call site, so
bjunk is empty, isbjunk is constantly false, and the two junk extension loops
of find_longest_match never fire. -/
/-- The ascending list of positions of a character in b (the b2j entry before
junk purging). -/
def positions (b : List Char) (c : Char) : List Nat :=
  (List.range b.length).filter (fun j => charAt b j = c)

/-- Number of occurrences of a character in b. -/
def countChar (b : List Char) (c : Char) : Nat := (positions b c).length

/-- autojunk: with len(b) >= 200, characters occurring more than
len(b) // 100 + 1 times are purged from b2j. -/
def isPopular (b : List Char) (c : Char) : Bool :=
  decide (200 ≤ b.length) && decide (b.length / 100 + 1 < countChar b c)

/-- b2j.get(c, []): the positions of c in b, empty for purged popular characters. -/
def b2jGet (b : List Char) (c : Char) : List Nat :=
  if isPopular b c then [] else positions b c

/-- self.bjunk.__contains__: the junk set is empty because isjunk is None. -/
def isbjunk (_ : Char) : Bool := false

/-- The running best block of find_longest_match. -/
structure DPState where
  besti : Nat
  bestj : Nat
  bestsize : Nat
deriving DecidableEq

/-- k = newj2len[j] = j2len.get(j-1, 0) + 1, where a Python j-1 of -1 misses. -/
def kfun (old : Nat → Nat) (j : Nat) : Nat := if j = 0 then 1 else old (j - 1) + 1

/-- The inner j-loop of find_longest_match over the (already filtered) position
list of a i, building newj2len and updating the best block.  The j2len map is a
total function whose absent entries are 0 (stored chain values are positive). -/
def innerLoop (i : Nat) (old : Nat → Nat) :
    List Nat → (Nat → Nat) → DPState → ((Nat → Nat) × DPState)
  | [], nj, st => (nj, st)
  | j :: js, nj, st =>
      let k := kfun old j
      innerLoop i old js (Function.update nj j k)
        (if st.bestsize < k then ⟨i + 1 - k, j + 1 - k, k⟩ else st)

/-- The outer i-loop of find_longest_match.  The continue/break pair on the
ascending b2j list is the filter blo <= j < bhi. -/
def outerLoop (a b : List Char) (blo bhi : Nat) :
    List Nat → (Nat → Nat) → DPState → DPState
  | [], _, st => st
  | i :: is, j2len, st =>
      let js := (b2jGet b (charAt a i)).filter (fun j => decide (blo ≤ j) && decide (j < bhi))
      let r := innerLoop i j2len js (fun _ => 0) st
      outerLoop a b blo bhi is r.1 r.2

/-- The dynamic-programming phase of find_longest_match: the best junk-free block. -/
def dpBest (a b : List Char) (alo ahi blo bhi : Nat) : DPState :=
  outerLoop a b blo bhi (List.range' alo (ahi - alo)) (fun _ => 0) ⟨alo, blo, 0⟩

/-- One backward extension loop of find_longest_match: how many steps the block
can be extended to the left while both indices stay above the lower bounds, the
characters match, and the b character passes the given test.  (Structurally
recursive on the left index so that the kernel can evaluate it.) -/
def extBack (a b : List Char) (allowed : Char → Bool) (alo blo : Nat) :
    Nat → Nat → Nat
  | 0, _ => 0
  | i + 1, j =>
      if alo < i + 1 ∧ blo < j ∧ charAt a i = charAt b (j - 1) ∧
          allowed (charAt b (j - 1)) = true then
        extBack a b allowed alo blo i (j - 1) + 1
      else 0

/-- One forward extension loop of find_longest_match, with explicit fuel (the
loop stops at the ahi edge, so ahi - i steps of fuel are never exhausted). -/
def extFwdAux (a b : List Char) (allowed : Char → Bool) (ahi bhi : Nat) :
    Nat → Nat → Nat → Nat
  | 0, _, _ => 0
  | fuel + 1, i, j =>
      if i < ahi ∧ j < bhi ∧ charAt a i = charAt b j ∧
          allowed (charAt b j) = true then
        extFwdAux a b allowed ahi bhi fuel (i + 1) (j + 1) + 1
      else 0

/-- One forward extension loop of find_longest_match. -/
def extFwd (a b : List Char) (allowed : Char → Bool) (ahi bhi i j : Nat) : Nat :=
  extFwdAux a b allowed ahi bhi (ahi - i) i j

/-- difflib find_longest_match(alo, ahi, blo, bhi): the DP best block followed by
the four extension loops (backward and forward over non-junk, then backward and
forward over junk; the junk loops are vacuous since bjunk is empty). -/
def find_longest_match (a b : List Char) (alo ahi blo bhi : Nat) : Nat × Nat × Nat :=
  let st := dpBest a b alo ahi blo bhi
  let d1 := extBack a b (fun c => !isbjunk c) alo blo st.besti st.bestj
  let bi1 := st.besti - d1
  let bj1 := st.bestj - d1
  let bs1 := st.bestsize + d1
  let d2 := extFwd a b (fun c => !isbjunk c) ahi bhi (bi1 + bs1) (bj1 + bs1)
  let bs2 := bs1 + d2
  let d3 := extBack a b isbjunk alo blo bi1 bj1
  let bi3 := bi1 - d3
  let bj3 := bj1 - d3
  let bs3 := bs2 + d3
  let d4 := extFwd a b isbjunk ahi bhi (bi3 + bs3) (bj3 + bs3)
  (bi3, bj3, bs3 + d4)

/-- Bounds invariant of the best block during the DP scan. -/
def InvB (alo ahi blo bhi : Nat) (st : DPState) : Prop :=
  (st.bestsize = 0 → st.besti = alo ∧ st.bestj = blo) ∧
  (1 ≤ st.bestsize →
    alo ≤ st.besti ∧ st.besti + st.bestsize ≤ ahi ∧
    blo ≤ st.bestj ∧ st.bestj + st.bestsize ≤ bhi)

/-- Bounds invariant of a j2len map: positive entries sit inside the b window
and are chains bounded by the window offsets. -/
def MapB (blo bhi bound : Nat) (m : Nat → Nat) : Prop :=
  ∀ j, 1 ≤ m j → blo ≤ j ∧ j < bhi ∧ m j ≤ j + 1 - blo ∧ m j ≤ bound

/-- get_matching_blocks, reduced to the total number of matched elements (the
quantity ratio consumes), with explicit fuel.  The queue in difflib explores
exactly this recursion tree: recurse left of the block when both left regions
are non-empty, and right of it when both right regions are non-empty.  Each
recursion shrinks (ahi - alo) + (bhi - blo) by flm_bounds, so the fuel used by
matchSum below is never exhausted (matchSumF_congr). -/
def matchSumF (a b : List Char) : Nat → Nat → Nat → Nat → Nat → Nat
  | 0, _, _, _, _ => 0
  | fuel + 1, alo, ahi, blo, bhi =>
    if (find_longest_match a b alo ahi blo bhi).2.2 = 0 then 0
    else
      (if alo < (find_longest_match a b alo ahi blo bhi).1 ∧
          blo < (find_longest_match a b alo ahi blo bhi).2.1 then
        matchSumF a b fuel alo (find_longest_match a b alo ahi blo bhi).1
          blo (find_longest_match a b alo ahi blo bhi).2.1
      else 0) +
      (find_longest_match a b alo ahi blo bhi).2.2 +
      (if (find_longest_match a b alo ahi blo bhi).1 +
            (find_longest_match a b alo ahi blo bhi).2.2 < ahi ∧
          (find_longest_match a b alo ahi blo bhi).2.1 +
            (find_longest_match a b alo ahi blo bhi).2.2 < bhi then
        matchSumF a b fuel
          ((find_longest_match a b alo ahi blo bhi).1 +
            (find_longest_match a b alo ahi blo bhi).2.2) ahi
          ((find_longest_match a b alo ahi blo bhi).2.1 +
            (find_longest_match a b alo ahi blo bhi).2.2) bhi
      else 0)

/-- The total matched count of get_matching_blocks. -/
def matchSum (a b : List Char) (alo ahi blo bhi : Nat) : Nat :=
  matchSumF a b (ahi - alo + (bhi - blo) + 1) alo ahi blo bhi

/-- SequenceMatcher.ratio(): 2 M / T on the full sequences, 1.0 for two empty
sequences. -/
def ratio (a b : List Char) : ℚ :=
  if a.length + b.length = 0 then 1
  else 2 * (matchSum a b 0 a.length 0 b.length : ℚ) / ((a.length + b.length : ℕ) : ℚ)

/-- difflib.SequenceMatcher(None, x, y).ratio() on Python strings. -/
def seqRatio (x y : String) : ℚ := ratio x.toList y.toList

/-- data_cleaner._calculate_file_similarity: weighted combination of name, size,
extension and content signals; the size signal only when both sizes are
positive, the content signal only when both content samples are non-empty
(computed on their first 200 characters); the weighted sum is divided by the
total weight of the collected signals. -/
def calculate_file_similarity (file1 file2 : CFile) : ℚ :=
  let name_sim := seqRatio (lowerStr file1.filename) (lowerStr file2.filename)
  let scores1 : List (String × ℚ × ℚ) := [(("name"), name_sim, (2 : ℚ) / 5)]
  let scores2 :=
    if 0 < file1.size ∧ 0 < file2.size then
      scores1 ++ [(("size"),
        ((min file1.size file2.size : ℕ) : ℚ) / ((max file1.size file2.size : ℕ) : ℚ),
        (1 : ℚ) / 5)]
    else scores1
  let scores3 := scores2 ++ [(("extension"),
    (if file1.extension = file2.extension then (1 : ℚ) else 0), (1 : ℚ) / 10)]
  let scores4 :=
    if file1.content_text ≠ ("") ∧ file2.content_text ≠ ("") then
      scores3 ++ [(("content"),
        ratio (file1.content_text.toList.take 200) (file2.content_text.toList.take 200),
        (3 : ℚ) / 10)]
    else scores3
  let total_weight := (scores4.map (fun s => s.2.2)).sum
  if 0 < total_weight then
    (scores4.map (fun s => s.2.1 * s.2.2)).sum / total_weight
  else 0

/-! #### ratio is 1 on identical sequences

The scan of a[lo:hi] against itself always returns a diagonal best block
(besti = bestj): the cell values of the scan are the chain lengths dpval below,
off-diagonal cells never exceed the diagonal cell of their row or column, and
the diagonal cell of a row is scanned between the smaller and the larger
columns of that row.  A diagonal block then grows to the whole window under the
two junk-free extension loops, because every character equals itself. -/
/-- The j2len value of cell (i, j) in the self-comparison scan of a[lo:hi]:
the recurrence of the inner loop, positive exactly on scanned cells. -/
def dpval (a : List Char) (lo hi : Nat) : Nat → Nat → Nat
  | 0, j =>
      if lo ≤ j ∧ j < hi ∧ charAt a j = charAt a 0 ∧ isPopular a (charAt a j) = false then
        1
      else 0
  | i + 1, j =>
      if lo ≤ j ∧ j < hi ∧ charAt a j = charAt a (i + 1) ∧
          isPopular a (charAt a j) = false then
        (if j = 0 ∨ i + 1 ≤ lo then 1 else dpval a lo hi i (j - 1) + 1)
      else 0

/-- The j2len map that enters row i of the self-comparison scan. -/
def prevMap (a : List Char) (lo hi i : Nat) : Nat → Nat :=
  fun j => if i ≤ lo then 0 else dpval a lo hi (i - 1) j

/-! ## Theorems -/

/-- The loop shape of extBack. -/
theorem extBack_eq (a b : List Char) (allowed : Char → Bool) (alo blo i j : Nat) :
    extBack a b allowed alo blo i j =
      if alo < i ∧ blo < j ∧ charAt a (i - 1) = charAt b (j - 1) ∧
          allowed (charAt b (j - 1)) = true then
        extBack a b allowed alo blo (i - 1) (j - 1) + 1
      else 0 := by
  cases i with
  | zero =>
    rw [extBack, if_neg (fun hc => absurd hc.1 (by omega))]
  | succ i =>
    rw [extBack]
    simp only [Nat.add_sub_cancel]

/-- The loop shape of extFwd. -/
theorem extFwd_eq (a b : List Char) (allowed : Char → Bool) (ahi bhi i j : Nat) :
    extFwd a b allowed ahi bhi i j =
      if i < ahi ∧ j < bhi ∧ charAt a i = charAt b j ∧
          allowed (charAt b j) = true then
        extFwd a b allowed ahi bhi (i + 1) (j + 1) + 1
      else 0 := by
  unfold extFwd
  cases hfi : ahi - i with
  | zero =>
    rw [extFwdAux, if_neg (fun hc => absurd hc.1 (by omega))]
  | succ n =>
    rw [extFwdAux]
    have harg : ahi - (i + 1) = n := by omega
    rw [harg]

/-! #### Bounds of find_longest_match (needed to define the block recursion) -/
theorem extBack_of_false (a b : List Char) (alo blo i j : Nat) :
    extBack a b isbjunk alo blo i j = 0 := by
  rw [extBack_eq]
  simp [isbjunk]

theorem extFwd_of_false (a b : List Char) (ahi bhi i j : Nat) :
    extFwd a b isbjunk ahi bhi i j = 0 := by
  rw [extFwd_eq]
  simp [isbjunk]

theorem extBack_at_lo (a b : List Char) (al : Char → Bool) (alo blo j : Nat) :
    extBack a b al alo blo alo j = 0 := by
  rw [extBack_eq]
  simp

theorem extBack_le (a b : List Char) (al : Char → Bool) (alo blo : Nat) :
    ∀ i j, extBack a b al alo blo i j ≤ i - alo ∧ extBack a b al alo blo i j ≤ j - blo := by
  intro i
  induction i using Nat.strong_induction_on with
  | _ i ih =>
    intro j
    rw [extBack_eq]
    split
    · rename_i h
      have hrec := ih (i - 1) (by omega) (j - 1)
      omega
    · omega

theorem extFwd_le_aux (a b : List Char) (al : Char → Bool) (ahi bhi : Nat) :
    ∀ n i j, ahi - i ≤ n →
      extFwd a b al ahi bhi i j ≤ ahi - i ∧ extFwd a b al ahi bhi i j ≤ bhi - j := by
  intro n
  induction n with
  | zero =>
    intro i j hn
    rw [extFwd_eq]
    split
    · rename_i h; omega
    · omega
  | succ n ih =>
    intro i j hn
    rw [extFwd_eq]
    split
    · rename_i h
      have hrec := ih (i + 1) (j + 1) (by omega)
      omega
    · omega

theorem extFwd_le (a b : List Char) (al : Char → Bool) (ahi bhi i j : Nat) :
    extFwd a b al ahi bhi i j ≤ ahi - i ∧ extFwd a b al ahi bhi i j ≤ bhi - j :=
  extFwd_le_aux a b al ahi bhi (ahi - i) i j (le_refl _)

theorem extFwd_pos (a b : List Char) (al : Char → Bool) (ahi bhi i j : Nat)
    (h : 1 ≤ extFwd a b al ahi bhi i j) : i < ahi ∧ j < bhi := by
  rw [extFwd_eq] at h
  split at h
  · rename_i hc; exact ⟨hc.1, hc.2.1⟩
  · omega

theorem kfun_bounds (old : Nat → Nat) (blo bhi bound j : Nat)
    (hold : MapB blo bhi bound old) (hj1 : blo ≤ j) :
    1 ≤ kfun old j ∧ kfun old j ≤ j + 1 - blo ∧ kfun old j ≤ bound + 1 := by
  unfold kfun
  split
  · omega
  · rename_i hj0
    by_cases h1 : 1 ≤ old (j - 1)
    · have := hold (j - 1) h1
      omega
    · omega

theorem innerLoop_invB (alo ahi blo bhi i : Nat) (old : Nat → Nat)
    (hia : alo ≤ i) (hih : i < ahi) (hold : MapB blo bhi (i - alo) old) :
    ∀ (js : List Nat) (nj : Nat → Nat) (st : DPState),
      (∀ j ∈ js, blo ≤ j ∧ j < bhi) →
      MapB blo bhi (i + 1 - alo) nj →
      InvB alo ahi blo bhi st →
      InvB alo ahi blo bhi (innerLoop i old js nj st).2 ∧
      MapB blo bhi (i + 1 - alo) (innerLoop i old js nj st).1 := by
  intro js
  induction js with
  | nil =>
    intro nj st _ hnj hst
    exact ⟨hst, hnj⟩
  | cons j js ih =>
    intro nj st hjs hnj hst
    have hj := hjs j (List.mem_cons_self j js)
    have hk := kfun_bounds old blo bhi (i - alo) j hold hj.1
    simp only [innerLoop]
    apply ih
    · intro x hx
      exact hjs x (List.mem_cons_of_mem j hx)
    · intro x hx
      by_cases hxj : x = j
      · subst hxj
        rw [Function.update_same] at hx ⊢
        exact ⟨hj.1, hj.2, hk.2.1, by omega⟩
      · rw [Function.update_noteq hxj] at hx ⊢
        exact hnj x hx
    · split
      · rename_i hlt
        constructor
        · intro h0
          dsimp only at h0
          omega
        · intro h1
          dsimp only
          omega
      · exact hst

theorem outerLoop_invB (a b : List Char) (alo ahi blo bhi : Nat) :
    ∀ (n i0 : Nat) (j2len : Nat → Nat) (st : DPState),
      alo ≤ i0 → i0 + n ≤ ahi →
      MapB blo bhi (i0 - alo) j2len →
      InvB alo ahi blo bhi st →
      InvB alo ahi blo bhi (outerLoop a b blo bhi (List.range' i0 n) j2len st) := by
  intro n
  induction n with
  | zero =>
    intro i0 m st _ _ _ hst
    simpa [outerLoop] using hst
  | succ n ih =>
    intro i0 m st h1 h2 hm hst
    rw [List.range'_succ]
    simp only [outerLoop]
    have hjs : ∀ j ∈ (b2jGet b (charAt a i0)).filter
        (fun j => decide (blo ≤ j) && decide (j < bhi)), blo ≤ j ∧ j < bhi := by
      intro j hjmem
      have := List.of_mem_filter hjmem
      simpa using this
    have hzero : MapB blo bhi (i0 + 1 - alo) (fun _ => 0) := by
      intro x hx
      dsimp only at hx
      omega
    have hinner := innerLoop_invB alo ahi blo bhi i0 m h1 (by omega) hm _ (fun _ => 0) st
      hjs hzero hst
    exact ih (i0 + 1) _ _ (by omega) (by omega) hinner.2 hinner.1

theorem initInvB (alo ahi blo bhi : Nat) : InvB alo ahi blo bhi ⟨alo, blo, 0⟩ := by
  constructor
  · intro _
    exact ⟨rfl, rfl⟩
  · intro h1
    dsimp only at h1
    omega

theorem dpBest_invB (a b : List Char) (alo ahi blo bhi : Nat) :
    InvB alo ahi blo bhi (dpBest a b alo ahi blo bhi) := by
  by_cases hcase : alo ≤ ahi
  · unfold dpBest
    apply outerLoop_invB a b alo ahi blo bhi (ahi - alo) alo _ _ (le_refl _) (by omega)
    · intro j hj
      dsimp only at hj
      omega
    · exact initInvB alo ahi blo bhi
  · unfold dpBest
    have hz : ahi - alo = 0 := by omega
    rw [hz, List.range'_zero]
    simpa only [outerLoop] using initInvB alo ahi blo bhi

theorem flm_bounds (a b : List Char) (alo ahi blo bhi : Nat)
    (hk : 1 ≤ (find_longest_match a b alo ahi blo bhi).2.2) :
    alo ≤ (find_longest_match a b alo ahi blo bhi).1 ∧
    (find_longest_match a b alo ahi blo bhi).1 +
      (find_longest_match a b alo ahi blo bhi).2.2 ≤ ahi ∧
    blo ≤ (find_longest_match a b alo ahi blo bhi).2.1 ∧
    (find_longest_match a b alo ahi blo bhi).2.1 +
      (find_longest_match a b alo ahi blo bhi).2.2 ≤ bhi := by
  have hinv := dpBest_invB a b alo ahi blo bhi
  revert hk
  unfold find_longest_match
  simp only [extBack_of_false, extFwd_of_false, Nat.sub_zero, Nat.add_zero]
  intro hk
  rcases Nat.eq_zero_or_pos (dpBest a b alo ahi blo bhi).bestsize with h0 | h1
  · have hij := hinv.1 h0
    rw [hij.1, hij.2] at hk ⊢
    rw [extBack_at_lo] at hk ⊢
    simp only [Nat.sub_zero, h0, Nat.add_zero, Nat.zero_add] at hk ⊢
    have hle := extFwd_le a b (fun c => !isbjunk c) ahi bhi alo blo
    have hpos := extFwd_pos a b (fun c => !isbjunk c) ahi bhi alo blo hk
    omega
  · have hb := hinv.2 h1
    have hd1 := extBack_le a b (fun c => !isbjunk c) alo blo
      (dpBest a b alo ahi blo bhi).besti (dpBest a b alo ahi blo bhi).bestj
    have hd2 := extFwd_le a b (fun c => !isbjunk c) ahi bhi
      ((dpBest a b alo ahi blo bhi).besti -
        extBack a b (fun c => !isbjunk c) alo blo
          (dpBest a b alo ahi blo bhi).besti (dpBest a b alo ahi blo bhi).bestj +
        ((dpBest a b alo ahi blo bhi).bestsize +
          extBack a b (fun c => !isbjunk c) alo blo
            (dpBest a b alo ahi blo bhi).besti (dpBest a b alo ahi blo bhi).bestj))
      ((dpBest a b alo ahi blo bhi).bestj -
        extBack a b (fun c => !isbjunk c) alo blo
          (dpBest a b alo ahi blo bhi).besti (dpBest a b alo ahi blo bhi).bestj +
        ((dpBest a b alo ahi blo bhi).bestsize +
          extBack a b (fun c => !isbjunk c) alo blo
            (dpBest a b alo ahi blo bhi).besti (dpBest a b alo ahi blo bhi).bestj))
    omega

/-- matchSumF is independent of the fuel once the fuel exceeds the window
measure, because find_longest_match shrinks the measure at every recursion. -/
theorem matchSumF_congr (a b : List Char) :
    ∀ fuel1 fuel2 alo ahi blo bhi,
      ahi - alo + (bhi - blo) < fuel1 → ahi - alo + (bhi - blo) < fuel2 →
      matchSumF a b fuel1 alo ahi blo bhi = matchSumF a b fuel2 alo ahi blo bhi := by
  intro fuel1
  induction fuel1 with
  | zero =>
    intro fuel2 alo ahi blo bhi h1 _
    omega
  | succ fuel1 ih =>
    intro fuel2 alo ahi blo bhi h1 h2
    cases fuel2 with
    | zero => omega
    | succ fuel2 =>
      rw [matchSumF, matchSumF]
      by_cases hk : (find_longest_match a b alo ahi blo bhi).2.2 = 0
      · rw [if_pos hk, if_pos hk]
      · rw [if_neg hk, if_neg hk]
        have hbd := flm_bounds a b alo ahi blo bhi (by omega)
        by_cases hL : alo < (find_longest_match a b alo ahi blo bhi).1 ∧
            blo < (find_longest_match a b alo ahi blo bhi).2.1
        · rw [if_pos hL, if_pos hL, ih fuel2 alo (find_longest_match a b alo ahi blo bhi).1 blo (find_longest_match a b alo ahi blo bhi).2.1 (by omega) (by omega)]
          by_cases hR : (find_longest_match a b alo ahi blo bhi).1 +
                (find_longest_match a b alo ahi blo bhi).2.2 < ahi ∧
              (find_longest_match a b alo ahi blo bhi).2.1 +
                (find_longest_match a b alo ahi blo bhi).2.2 < bhi
          · rw [if_pos hR, if_pos hR, ih fuel2 ((find_longest_match a b alo ahi blo bhi).1 + (find_longest_match a b alo ahi blo bhi).2.2) ahi ((find_longest_match a b alo ahi blo bhi).2.1 + (find_longest_match a b alo ahi blo bhi).2.2) bhi (by omega) (by omega)]
          · rw [if_neg hR, if_neg hR]
        · rw [if_neg hL, if_neg hL]
          by_cases hR : (find_longest_match a b alo ahi blo bhi).1 +
                (find_longest_match a b alo ahi blo bhi).2.2 < ahi ∧
              (find_longest_match a b alo ahi blo bhi).2.1 +
                (find_longest_match a b alo ahi blo bhi).2.2 < bhi
          · rw [if_pos hR, if_pos hR, ih fuel2 ((find_longest_match a b alo ahi blo bhi).1 + (find_longest_match a b alo ahi blo bhi).2.2) ahi ((find_longest_match a b alo ahi blo bhi).2.1 + (find_longest_match a b alo ahi blo bhi).2.2) bhi (by omega) (by omega)]
          · rw [if_neg hR, if_neg hR]

/-- The recursion shape of matchSum. -/
theorem matchSum_eq (a b : List Char) (alo ahi blo bhi : Nat) :
    matchSum a b alo ahi blo bhi =
      if (find_longest_match a b alo ahi blo bhi).2.2 = 0 then 0
      else
        (if alo < (find_longest_match a b alo ahi blo bhi).1 ∧
            blo < (find_longest_match a b alo ahi blo bhi).2.1 then
          matchSum a b alo (find_longest_match a b alo ahi blo bhi).1
            blo (find_longest_match a b alo ahi blo bhi).2.1
        else 0) +
        (find_longest_match a b alo ahi blo bhi).2.2 +
        (if (find_longest_match a b alo ahi blo bhi).1 +
              (find_longest_match a b alo ahi blo bhi).2.2 < ahi ∧
            (find_longest_match a b alo ahi blo bhi).2.1 +
              (find_longest_match a b alo ahi blo bhi).2.2 < bhi then
          matchSum a b
            ((find_longest_match a b alo ahi blo bhi).1 +
              (find_longest_match a b alo ahi blo bhi).2.2) ahi
            ((find_longest_match a b alo ahi blo bhi).2.1 +
              (find_longest_match a b alo ahi blo bhi).2.2) bhi
        else 0) := by
  unfold matchSum
  rw [matchSumF]
  by_cases hk : (find_longest_match a b alo ahi blo bhi).2.2 = 0
  · rw [if_pos hk, if_pos hk]
  · rw [if_neg hk, if_neg hk]
    have hbd := flm_bounds a b alo ahi blo bhi (by omega)
    by_cases hL : alo < (find_longest_match a b alo ahi blo bhi).1 ∧
        blo < (find_longest_match a b alo ahi blo bhi).2.1
    · rw [if_pos hL, if_pos hL,
        matchSumF_congr a b (ahi - alo + (bhi - blo)) ((find_longest_match a b alo ahi blo bhi).1 - alo + ((find_longest_match a b alo ahi blo bhi).2.1 - blo) + 1) alo (find_longest_match a b alo ahi blo bhi).1 blo (find_longest_match a b alo ahi blo bhi).2.1 (by omega) (by omega)]
      by_cases hR : (find_longest_match a b alo ahi blo bhi).1 +
            (find_longest_match a b alo ahi blo bhi).2.2 < ahi ∧
          (find_longest_match a b alo ahi blo bhi).2.1 +
            (find_longest_match a b alo ahi blo bhi).2.2 < bhi
      · rw [if_pos hR, if_pos hR,
          matchSumF_congr a b (ahi - alo + (bhi - blo)) (ahi - ((find_longest_match a b alo ahi blo bhi).1 + (find_longest_match a b alo ahi blo bhi).2.2) + (bhi - ((find_longest_match a b alo ahi blo bhi).2.1 + (find_longest_match a b alo ahi blo bhi).2.2)) + 1) ((find_longest_match a b alo ahi blo bhi).1 + (find_longest_match a b alo ahi blo bhi).2.2) ahi ((find_longest_match a b alo ahi blo bhi).2.1 + (find_longest_match a b alo ahi blo bhi).2.2) bhi (by omega) (by omega)]
      · rw [if_neg hR, if_neg hR]
    · rw [if_neg hL, if_neg hL]
      by_cases hR : (find_longest_match a b alo ahi blo bhi).1 +
            (find_longest_match a b alo ahi blo bhi).2.2 < ahi ∧
          (find_longest_match a b alo ahi blo bhi).2.1 +
            (find_longest_match a b alo ahi blo bhi).2.2 < bhi
      · rw [if_pos hR, if_pos hR,
          matchSumF_congr a b (ahi - alo + (bhi - blo)) (ahi - ((find_longest_match a b alo ahi blo bhi).1 + (find_longest_match a b alo ahi blo bhi).2.2) + (bhi - ((find_longest_match a b alo ahi blo bhi).2.1 + (find_longest_match a b alo ahi blo bhi).2.2)) + 1) ((find_longest_match a b alo ahi blo bhi).1 + (find_longest_match a b alo ahi blo bhi).2.2) ahi ((find_longest_match a b alo ahi blo bhi).2.1 + (find_longest_match a b alo ahi blo bhi).2.2) bhi (by omega) (by omega)]
      · rw [if_neg hR, if_neg hR]

/-- The recurrence shape of dpval (a row index 0 is always a base row). -/
theorem dpval_eq (a : List Char) (lo hi i j : Nat) :
    dpval a lo hi i j =
      if lo ≤ j ∧ j < hi ∧ charAt a j = charAt a i ∧
          isPopular a (charAt a j) = false then
        (if j = 0 ∨ i ≤ lo then 1 else dpval a lo hi (i - 1) (j - 1) + 1)
      else 0 := by
  cases i with
  | zero =>
    rw [dpval]
    by_cases hg : lo ≤ j ∧ j < hi ∧ charAt a j = charAt a 0 ∧
        isPopular a (charAt a j) = false
    · rw [if_pos hg, if_pos hg, if_pos (Or.inr (Nat.zero_le lo))]
    · rw [if_neg hg, if_neg hg]
  | succ i =>
    rw [dpval]
    simp only [Nat.add_sub_cancel]

/-- Membership in the filtered b2j list of row i is the dpval guard. -/
theorem mem_js_iff (a : List Char) (lo hi : Nat) (hhi : hi ≤ a.length) (i j : Nat) :
    (j ∈ (b2jGet a (charAt a i)).filter (fun j => decide (lo ≤ j) && decide (j < hi))) ↔
    (lo ≤ j ∧ j < hi ∧ charAt a j = charAt a i ∧ isPopular a (charAt a j) = false) := by
  unfold b2jGet
  split
  · rename_i hpop
    simp only [List.filter_nil, List.not_mem_nil, false_iff]
    intro hcl
    rw [hcl.2.2.1] at hcl
    rw [hpop] at hcl
    exact absurd hcl.2.2.2 (by simp)
  · rename_i hpop
    unfold positions
    simp only [List.mem_filter, List.mem_range, decide_eq_true_eq, Bool.and_eq_true]
    constructor
    · intro hcl
      refine ⟨hcl.2.1, hcl.2.2, hcl.1.2, ?_⟩
      rw [hcl.1.2]
      exact eq_false_of_ne_true hpop
    · intro hcl
      exact ⟨⟨by omega, hcl.2.2.1⟩, hcl.1, hcl.2.1⟩

/-- An off-diagonal chain value never exceeds the diagonal value of its column. -/
theorem dpval_le_col (a : List Char) (lo hi : Nat) :
    ∀ i j, dpval a lo hi i j ≤ dpval a lo hi j j := by
  intro i
  induction i using Nat.strong_induction_on with
  | _ i ih =>
    intro j
    rw [dpval_eq]
    split
    · rename_i hg
      have hgj : lo ≤ j ∧ j < hi ∧ charAt a j = charAt a j ∧
          isPopular a (charAt a j) = false := ⟨hg.1, hg.2.1, rfl, hg.2.2.2⟩
      split
      · rename_i hbase
        conv_rhs => rw [dpval_eq]
        rw [if_pos hgj]
        split <;> omega
      · rename_i hbase
        by_cases hjlo : j ≤ lo
        · have hj0 : dpval a lo hi (i - 1) (j - 1) = 0 := by
            rw [dpval_eq]
            split
            · rename_i hg2
              omega
            · rfl
          rw [hj0]
          conv_rhs => rw [dpval_eq]
          rw [if_pos hgj]
          split <;> omega
        · have hrec := ih (i - 1) (by omega) (j - 1)
          conv_rhs => rw [dpval_eq]
          rw [if_pos hgj]
          rw [if_neg (by omega : ¬(j = 0 ∨ j ≤ lo))]
          omega
    · omega

/-- An off-diagonal chain value never exceeds the diagonal value of its row. -/
theorem dpval_le_row (a : List Char) (lo hi : Nat) :
    ∀ i j, lo ≤ i → i < hi → dpval a lo hi i j ≤ dpval a lo hi i i := by
  intro i
  induction i using Nat.strong_induction_on with
  | _ i ih =>
    intro j hlo hhi
    rw [dpval_eq]
    split
    · rename_i hg
      have hgi : lo ≤ i ∧ i < hi ∧ charAt a i = charAt a i ∧
          isPopular a (charAt a i) = false := by
        refine ⟨hlo, hhi, rfl, ?_⟩
        rw [← hg.2.2.1]
        exact hg.2.2.2
      split
      · rename_i hbase
        conv_rhs => rw [dpval_eq]
        rw [if_pos hgi]
        split <;> omega
      · rename_i hbase
        have hrec := ih (i - 1) (by omega) (j - 1) (by omega) (by omega)
        conv_rhs => rw [dpval_eq]
        rw [if_pos hgi]
        rw [if_neg (by omega : ¬(i = 0 ∨ i ≤ lo))]
        omega
    · omega

/-- The k value computed in row i from the entering map is the dpval of the
cell, on cells satisfying the guard. -/
theorem kfun_prevMap (a : List Char) (lo hi i j : Nat)
    (hg : lo ≤ j ∧ j < hi ∧ charAt a j = charAt a i ∧
      isPopular a (charAt a j) = false) :
    kfun (prevMap a lo hi i) j = dpval a lo hi i j := by
  unfold kfun prevMap
  conv_rhs => rw [dpval_eq]
  rw [if_pos hg]
  by_cases hj0 : j = 0
  · rw [if_pos hj0, if_pos (Or.inl hj0)]
  · rw [if_neg hj0]
    by_cases hlo : i ≤ lo
    · rw [if_pos hlo, if_pos (Or.inr hlo)]
    · rw [if_neg hlo, if_neg (by omega : ¬(j = 0 ∨ i ≤ lo))]

/-- The result of innerLoop does not depend on the entering map beyond its
pointwise values. -/
theorem innerLoop_congr (i : Nat) (old1 old2 : Nat → Nat)
    (h : ∀ x, old1 x = old2 x) :
    ∀ (js : List Nat) (nj : Nat → Nat) (st : DPState),
      innerLoop i old1 js nj st = innerLoop i old2 js nj st := by
  intro js
  induction js with
  | nil => intro nj st; rfl
  | cons j js ih =>
    intro nj st
    simp only [innerLoop]
    rw [show kfun old1 j = kfun old2 j by unfold kfun; rw [h (j - 1)]]
    exact ih _ _

/-- Splitting innerLoop along a list append. -/
theorem innerLoop_append (i : Nat) (old : Nat → Nat) :
    ∀ (l1 l2 : List Nat) (nj : Nat → Nat) (st : DPState),
      innerLoop i old (l1 ++ l2) nj st =
        innerLoop i old l2 (innerLoop i old l1 nj st).1 (innerLoop i old l1 nj st).2 := by
  intro l1
  induction l1 with
  | nil => intro l2 nj st; rfl
  | cons j l1 ih =>
    intro l2 nj st
    simp only [List.cons_append, innerLoop]
    exact ih _ _ _

/-- The map innerLoop builds: the k value on scanned columns, untouched elsewhere. -/
theorem innerLoop_nj (i : Nat) (old : Nat → Nat) :
    ∀ (js : List Nat) (nj : Nat → Nat) (st : DPState) (x : Nat),
      (innerLoop i old js nj st).1 x = if x ∈ js then kfun old x else nj x := by
  intro js
  induction js with
  | nil =>
    intro nj st x
    simp [innerLoop]
  | cons j js ih =>
    intro nj st x
    simp only [innerLoop]
    rw [ih]
    by_cases hx : x ∈ js
    · rw [if_pos hx, if_pos (List.mem_cons_of_mem j hx)]
    · rw [if_neg hx]
      by_cases hxj : x = j
      · subst hxj
        rw [Function.update_same, if_pos (List.mem_cons_self x js)]
      · rw [Function.update_noteq hxj,
          if_neg (by simp [List.mem_cons, hx, hxj])]

/-- If no scanned column can beat the current best, the best is unchanged. -/
theorem innerLoop_noupd (i : Nat) (old : Nat → Nat) :
    ∀ (js : List Nat) (nj : Nat → Nat) (st : DPState),
      (∀ j ∈ js, kfun old j ≤ st.bestsize) →
      (innerLoop i old js nj st).2 = st := by
  intro js
  induction js with
  | nil => intro nj st _; rfl
  | cons j js ih =>
    intro nj st hle
    simp only [innerLoop]
    rw [if_neg (by
      have := hle j (List.mem_cons_self j js)
      omega)]
    exact ih _ _ (fun x hx => hle x (List.mem_cons_of_mem j hx))

/-- Decomposition of a strictly sorted list at a member. -/
theorem sorted_mem_split :
    ∀ (l : List Nat) (i : Nat), l.Pairwise (· < ·) → i ∈ l →
      ∃ L R, l = L ++ i :: R ∧ (∀ x ∈ L, x < i) ∧ (∀ x ∈ R, i < x) := by
  intro l
  induction l with
  | nil => intro i _ hm; exact absurd hm (List.not_mem_nil i)
  | cons j l ih =>
    intro i hp hm
    rcases List.mem_cons.mp hm with hji | hi
    · subst hji
      refine ⟨[], l, rfl, by simp, ?_⟩
      intro x hx
      exact (List.pairwise_cons.mp hp).1 x hx
    · obtain ⟨L, R, hLR, hL, hR⟩ := ih i (List.Pairwise.of_cons hp) hi
      refine ⟨j :: L, R, by rw [hLR, List.cons_append], ?_, hR⟩
      intro x hx
      rcases List.mem_cons.mp hx with hxj | hxL
      · rw [hxj]
        exact (List.pairwise_cons.mp hp).1 i hi
      · exact hL x hxL

/-- The filtered b2j row list is strictly sorted. -/
theorem js_pairwise (a : List Char) (lo hi : Nat) (c : Char) :
    ((b2jGet a c).filter (fun j => decide (lo ≤ j) && decide (j < hi))).Pairwise (· < ·) := by
  apply List.Pairwise.filter
  unfold b2jGet
  split
  · exact List.Pairwise.nil
  · unfold positions
    exact (List.pairwise_lt_range a.length).filter _

/-- A cell outside the guard has dpval 0. -/
theorem dpval_zero_of_not_guard (a : List Char) (lo hi i j : Nat)
    (h : ¬(lo ≤ j ∧ j < hi ∧ charAt a j = charAt a i ∧
      isPopular a (charAt a j) = false)) :
    dpval a lo hi i j = 0 := by
  rw [dpval_eq]
  rw [if_neg h]

/-- Diagonal invariant of the outer scan of a[lo:hi] against itself: the best
block stays diagonal and dominates every diagonal cell of the processed rows. -/
theorem outerLoop_diag (a : List Char) (lo hi : Nat) (hhi : hi ≤ a.length) :
    ∀ (n i0 : Nat) (m : Nat → Nat) (st : DPState),
      lo ≤ i0 → i0 + n = hi →
      (∀ x, m x = prevMap a lo hi i0 x) →
      st.besti = st.bestj →
      (∀ p, lo ≤ p → p < i0 → dpval a lo hi p p ≤ st.bestsize) →
      (outerLoop a a lo hi (List.range' i0 n) m st).besti =
        (outerLoop a a lo hi (List.range' i0 n) m st).bestj ∧
      (∀ p, lo ≤ p → p < hi → dpval a lo hi p p ≤
        (outerLoop a a lo hi (List.range' i0 n) m st).bestsize) := by
  intro n
  induction n with
  | zero =>
    intro i0 m st h1 h2 _ hd hmax
    rw [List.range'_zero]
    simp only [outerLoop]
    exact ⟨hd, fun p hp1 hp2 => hmax p hp1 (by omega)⟩
  | succ n ih =>
    intro i0 m st h1 h2 hm hd hmax
    rw [List.range'_succ]
    simp only [outerLoop]
    rw [innerLoop_congr i0 m (prevMap a lo hi i0) hm]
    have hi0hi : i0 < hi := by omega
    by_cases hpop : isPopular a (charAt a i0) = true
    · -- popular row: the b2j entry is purged, the row is a no-op and all its
      -- dpval cells are 0
      have hjs : (b2jGet a (charAt a i0)).filter
          (fun j => decide (lo ≤ j) && decide (j < hi)) = [] := by
        unfold b2jGet
        rw [if_pos hpop, List.filter_nil]
      rw [hjs]
      have hdp0 : ∀ x, dpval a lo hi i0 x = 0 := by
        intro x
        apply dpval_zero_of_not_guard
        intro hg
        rw [hg.2.2.1, hpop] at hg
        exact absurd hg.2.2.2 (by simp)
      have := ih (i0 + 1) (fun _ => 0) st (by omega) (by omega)
        (fun x => by
          unfold prevMap
          rw [if_neg (by omega : ¬ i0 + 1 ≤ lo)]
          simp only [Nat.add_sub_cancel]
          exact (hdp0 x).symm)
        hd
        (fun p hp1 hp2 => by
          by_cases hpi : p < i0
          · exact hmax p hp1 hpi
          · have : p = i0 := by omega
            rw [this, hdp0]
            exact Nat.zero_le _)
      exact this
    · -- non-popular row: split the scanned columns around the diagonal
      have hg0 : lo ≤ i0 ∧ i0 < hi ∧ charAt a i0 = charAt a i0 ∧
          isPopular a (charAt a i0) = false :=
        ⟨h1, hi0hi, rfl, eq_false_of_ne_true hpop⟩
      have hmem : i0 ∈ (b2jGet a (charAt a i0)).filter
          (fun j => decide (lo ≤ j) && decide (j < hi)) :=
        (mem_js_iff a lo hi hhi i0 i0).mpr hg0
      obtain ⟨L, R, hLR, hL, hR⟩ := sorted_mem_split _ i0
        (js_pairwise a lo hi (charAt a i0)) hmem
      have hmemL : ∀ j ∈ L, lo ≤ j ∧ j < hi ∧ charAt a j = charAt a i0 ∧
          isPopular a (charAt a j) = false := by
        intro j hj
        exact (mem_js_iff a lo hi hhi i0 j).mp (by rw [hLR]; exact List.mem_append_left _ hj)
      have hmemR : ∀ j ∈ R, lo ≤ j ∧ j < hi ∧ charAt a j = charAt a i0 ∧
          isPopular a (charAt a j) = false := by
        intro j hj
        refine (mem_js_iff a lo hi hhi i0 j).mp ?_
        rw [hLR]
        exact List.mem_append_right _ (List.mem_cons_of_mem _ hj)
      -- the best is unchanged over L
      have hbestL : (innerLoop i0 (prevMap a lo hi i0) L (fun _ => 0) st).2 = st := by
        apply innerLoop_noupd
        intro j hj
        rw [kfun_prevMap a lo hi i0 j (hmemL j hj)]
        calc dpval a lo hi i0 j ≤ dpval a lo hi j j := dpval_le_col a lo hi i0 j
          _ ≤ st.bestsize := hmax j (hmemL j hj).1 (hL j hj)
      -- process the row
      rw [hLR, innerLoop_append]
      rw [hbestL]
      simp only [innerLoop]
      rw [kfun_prevMap a lo hi i0 i0 hg0]
      -- the state after the diagonal column
      have hstep : ∀ st2 : DPState,
          st2 = (if st.bestsize < dpval a lo hi i0 i0 then
            ⟨i0 + 1 - dpval a lo hi i0 i0, i0 + 1 - dpval a lo hi i0 i0,
              dpval a lo hi i0 i0⟩ else st) →
          st2.besti = st2.bestj ∧ st.bestsize ≤ st2.bestsize ∧
            dpval a lo hi i0 i0 ≤ st2.bestsize := by
        intro st2 hst2
        by_cases hlt : st.bestsize < dpval a lo hi i0 i0
        · rw [if_pos hlt] at hst2
          rw [hst2]
          exact ⟨rfl, by dsimp only; omega, by dsimp only; omega⟩
        · rw [if_neg hlt] at hst2
          rw [hst2]
          exact ⟨hd, le_refl _, by omega⟩
      obtain ⟨hd2, hbs2, hbs2d⟩ := hstep _ rfl
      -- the best is unchanged over R
      have hbestR : (innerLoop i0 (prevMap a lo hi i0) R
          (Function.update (innerLoop i0 (prevMap a lo hi i0) L (fun _ => 0) st).1 i0
            (dpval a lo hi i0 i0))
          (if st.bestsize < dpval a lo hi i0 i0 then
            ⟨i0 + 1 - dpval a lo hi i0 i0, i0 + 1 - dpval a lo hi i0 i0,
              dpval a lo hi i0 i0⟩ else st)).2 =
          (if st.bestsize < dpval a lo hi i0 i0 then
            ⟨i0 + 1 - dpval a lo hi i0 i0, i0 + 1 - dpval a lo hi i0 i0,
              dpval a lo hi i0 i0⟩ else st) := by
        apply innerLoop_noupd
        intro j hj
        rw [kfun_prevMap a lo hi i0 j (hmemR j hj)]
        calc dpval a lo hi i0 j ≤ dpval a lo hi i0 i0 :=
              dpval_le_row a lo hi i0 j h1 hi0hi
          _ ≤ _ := hbs2d
      rw [hbestR]
      -- the map built by the whole row is dpval i0
      have hnj : ∀ x, (innerLoop i0 (prevMap a lo hi i0) R
          (Function.update (innerLoop i0 (prevMap a lo hi i0) L (fun _ => 0) st).1 i0
            (dpval a lo hi i0 i0))
          (if st.bestsize < dpval a lo hi i0 i0 then
            ⟨i0 + 1 - dpval a lo hi i0 i0, i0 + 1 - dpval a lo hi i0 i0,
              dpval a lo hi i0 i0⟩ else st)).1 x = prevMap a lo hi (i0 + 1) x := by
        intro x
        have hfull : (innerLoop i0 (prevMap a lo hi i0)
            (L ++ i0 :: R) (fun _ => 0) st).1 x =
            if x ∈ L ++ i0 :: R then kfun (prevMap a lo hi i0) x else 0 :=
          innerLoop_nj i0 (prevMap a lo hi i0) (L ++ i0 :: R) (fun _ => 0) st x
        rw [innerLoop_append] at hfull
        rw [hbestL] at hfull
        simp only [innerLoop] at hfull
        rw [kfun_prevMap a lo hi i0 i0 hg0] at hfull
        rw [hfull]
        unfold prevMap
        rw [if_neg (by omega : ¬ i0 + 1 ≤ lo)]
        simp only [Nat.add_sub_cancel]
        by_cases hx : x ∈ L ++ i0 :: R
        · rw [if_pos hx]
          have hgx := (mem_js_iff a lo hi hhi i0 x).mp (by rw [hLR]; exact hx)
          exact kfun_prevMap a lo hi i0 x hgx
        · rw [if_neg hx]
          refine (dpval_zero_of_not_guard a lo hi i0 x ?_).symm
          intro hgx
          exact hx (by rw [← hLR]; exact (mem_js_iff a lo hi hhi i0 x).mpr hgx)
      -- conclude by the induction hypothesis at row i0 + 1
      apply ih (i0 + 1) _ _ (by omega) (by omega) hnj hd2
      intro p hp1 hp2
      by_cases hpi : p < i0
      · exact le_trans (hmax p hp1 hpi) hbs2
      · have hpe : p = i0 := by omega
        rw [hpe]
        exact hbs2d

/-- The self-comparison scan returns a diagonal best block. -/
theorem dpBest_diag (a : List Char) (lo hi : Nat) (hlo : lo ≤ hi) (hhi : hi ≤ a.length) :
    (dpBest a a lo hi lo hi).besti = (dpBest a a lo hi lo hi).bestj := by
  unfold dpBest
  refine (outerLoop_diag a lo hi hhi (hi - lo) lo (fun _ => 0) ⟨lo, lo, 0⟩ (le_refl lo)
    (by omega)
    (fun x => by unfold prevMap; rw [if_pos (le_refl lo)])
    rfl
    (fun p hp1 hp2 => absurd hp2 (by omega))).1

theorem extBack_refl (a : List Char) (al : Char → Bool) (hal : ∀ c, al c = true)
    (lo : Nat) : ∀ i, extBack a a al lo lo i i = i - lo := by
  intro i
  induction i using Nat.strong_induction_on with
  | _ i ih =>
    rw [extBack_eq]
    by_cases h : lo < i
    · rw [if_pos ⟨h, h, rfl, hal _⟩]
      rw [ih (i - 1) (by omega)]
      omega
    · rw [if_neg (fun hc => h hc.1)]
      omega

theorem extFwd_refl_aux (a : List Char) (al : Char → Bool) (hal : ∀ c, al c = true)
    (hi : Nat) : ∀ n i, hi - i ≤ n → extFwd a a al hi hi i i = hi - i := by
  intro n
  induction n with
  | zero =>
    intro i hn
    rw [extFwd_eq]
    rw [if_neg (fun hc => absurd hc.1 (by omega))]
    omega
  | succ n ih =>
    intro i hn
    rw [extFwd_eq]
    by_cases h : i < hi
    · rw [if_pos ⟨h, h, rfl, hal _⟩]
      rw [ih (i + 1) (by omega)]
      omega
    · rw [if_neg (fun hc => h hc.1)]
      omega

theorem extFwd_refl (a : List Char) (al : Char → Bool) (hal : ∀ c, al c = true)
    (hi i : Nat) : extFwd a a al hi hi i i = hi - i :=
  extFwd_refl_aux a al hal hi (hi - i) i (le_refl _)

/-- On identical sequences find_longest_match returns the whole window: the DP
block is diagonal and both junk-free extension loops run to the window edges. -/
theorem flm_refl (a : List Char) (lo hi : Nat) (hlo : lo ≤ hi) (hhi : hi ≤ a.length) :
    find_longest_match a a lo hi lo hi = (lo, lo, hi - lo) := by
  have hdiag := dpBest_diag a lo hi hlo hhi
  have hinv := dpBest_invB a a lo hi lo hi
  have hb : lo ≤ (dpBest a a lo hi lo hi).besti ∧
      (dpBest a a lo hi lo hi).besti + (dpBest a a lo hi lo hi).bestsize ≤ hi := by
    rcases Nat.eq_zero_or_pos (dpBest a a lo hi lo hi).bestsize with h0 | h1
    · have h := hinv.1 h0
      omega
    · have h := hinv.2 h1
      omega
  have htrue : ∀ c, (fun c => !isbjunk c) c = true := by
    intro c
    rfl
  simp only [find_longest_match]
  rw [← hdiag]
  rw [extBack_refl a _ htrue lo (dpBest a a lo hi lo hi).besti]
  rw [extFwd_refl a _ htrue hi]
  rw [extBack_of_false, extFwd_of_false]
  simp only [Prod.mk.injEq]
  refine ⟨by omega, by omega, by omega⟩

/-- matchSum over the whole self-comparison is the full length. -/
theorem matchSum_refl (a : List Char) : matchSum a a 0 a.length 0 a.length = a.length := by
  rw [matchSum_eq]
  rw [flm_refl a 0 a.length (Nat.zero_le _) (le_refl _)]
  by_cases h : a.length = 0
  · rw [if_pos (by simpa using h)]
    omega
  · rw [if_neg (by simpa using h)]
    rw [if_neg (by dsimp only; omega)]
    rw [if_neg (by dsimp only; omega)]
    dsimp only
    omega

/-- SequenceMatcher.ratio() of a sequence against itself is 1. -/
theorem ratio_refl (a : List Char) : ratio a a = 1 := by
  unfold ratio
  by_cases h : a.length + a.length = 0
  · rw [if_pos h]
  · rw [if_neg h, matchSum_refl]
    have hne : ((a.length + a.length : ℕ) : ℚ) ≠ 0 := by
      exact_mod_cast h
    rw [div_eq_one_iff_eq hne]
    push_cast
    ring

/-! #### ratio lies in the unit interval -/
/-- matchSum never exceeds either window width. -/
theorem matchSum_le (a b : List Char) :
    ∀ (fuel alo ahi blo bhi : Nat), ahi - alo + (bhi - blo) ≤ fuel →
      matchSum a b alo ahi blo bhi ≤ ahi - alo ∧
      matchSum a b alo ahi blo bhi ≤ bhi - blo := by
  intro fuel
  induction fuel with
  | zero =>
    intro alo ahi blo bhi hf
    rw [matchSum_eq]
    split
    · exact ⟨Nat.zero_le _, Nat.zero_le _⟩
    · rename_i hk
      have hbd := flm_bounds a b alo ahi blo bhi (by omega)
      omega
  | succ fuel ih =>
    intro alo ahi blo bhi hf
    rw [matchSum_eq]
    split
    · exact ⟨Nat.zero_le _, Nat.zero_le _⟩
    · rename_i hk
      have hbd := flm_bounds a b alo ahi blo bhi (by omega)
      split
      · rename_i h1
        have ihL := ih alo (find_longest_match a b alo ahi blo bhi).1
          blo (find_longest_match a b alo ahi blo bhi).2.1 (by omega)
        split
        · rename_i h2
          have ihR := ih
            ((find_longest_match a b alo ahi blo bhi).1 +
              (find_longest_match a b alo ahi blo bhi).2.2) ahi
            ((find_longest_match a b alo ahi blo bhi).2.1 +
              (find_longest_match a b alo ahi blo bhi).2.2) bhi (by omega)
          omega
        · omega
      · split
        · rename_i h2
          have ihR := ih
            ((find_longest_match a b alo ahi blo bhi).1 +
              (find_longest_match a b alo ahi blo bhi).2.2) ahi
            ((find_longest_match a b alo ahi blo bhi).2.1 +
              (find_longest_match a b alo ahi blo bhi).2.2) bhi (by omega)
          omega
        · omega

/-- SequenceMatcher.ratio() always lies in [0, 1]. -/
theorem ratio_bounds (a b : List Char) : 0 ≤ ratio a b ∧ ratio a b ≤ 1 := by
  unfold ratio
  split
  · norm_num
  · rename_i h
    have hM := matchSum_le a b (a.length - 0 + (b.length - 0)) 0 a.length 0 b.length
      (le_refl _)
    have hlen : 0 < a.length + b.length := Nat.pos_of_ne_zero h
    have hpos : (0 : ℚ) < ((a.length + b.length : ℕ) : ℚ) := by
      exact_mod_cast hlen
    constructor
    · positivity
    · rw [div_le_one hpos]
      have h2 : 2 * matchSum a b 0 a.length 0 b.length ≤ a.length + b.length := by
        omega
      calc 2 * (matchSum a b 0 a.length 0 b.length : ℚ) =
            ((2 * matchSum a b 0 a.length 0 b.length : ℕ) : ℚ) := by push_cast; ring
        _ ≤ ((a.length + b.length : ℕ) : ℚ) := by exact_mod_cast h2

/-! ### Similarity: range and reflexivity -/
theorem seqRatio_bounds (x y : String) : 0 ≤ seqRatio x y ∧ seqRatio x y ≤ 1 :=
  ratio_bounds x.toList y.toList

theorem seqRatio_refl (x : String) : seqRatio x x = 1 := ratio_refl x.toList

theorem similarity_range (file1 file2 : CFile) :
    0 ≤ calculate_file_similarity file1 file2 ∧
      calculate_file_similarity file1 file2 ≤ 1 := by
  unfold calculate_file_similarity
  dsimp only
  have hn := seqRatio_bounds (lowerStr file1.filename) (lowerStr file2.filename)
  have hc := ratio_bounds (file1.content_text.toList.take 200)
    (file2.content_text.toList.take 200)
  have hs0 : (0:ℚ) ≤ ((min file1.size file2.size : ℕ) : ℚ) /
      ((max file1.size file2.size : ℕ) : ℚ) := by positivity
  have hs1 : ((min file1.size file2.size : ℕ) : ℚ) /
      ((max file1.size file2.size : ℕ) : ℚ) ≤ 1 := by
    apply div_le_one_of_le
    · exact_mod_cast Nat.cast_le.mpr min_le_max
    · positivity
  have he0 : (0:ℚ) ≤ (if file1.extension = file2.extension then (1:ℚ) else 0) := by
    split <;> norm_num
  have he1 : (if file1.extension = file2.extension then (1:ℚ) else 0) ≤ 1 := by
    split <;> norm_num
  by_cases hsz : 0 < file1.size ∧ 0 < file2.size
  · rw [if_pos hsz]
    by_cases hct : file1.content_text ≠ ("") ∧ file2.content_text ≠ ("")
    · rw [if_pos hct]
      simp only [List.map_append, List.map_cons, List.map_nil, List.sum_append,
        List.sum_cons, List.sum_nil]
      rw [if_pos (by norm_num : (0:ℚ) < 2 / 5 + 0 + (1 / 5 + 0) + (1 / 10 + 0) + (3 / 10 + 0))]
      constructor
      · apply div_nonneg
        · linarith [hn.1, hc.1]
        · norm_num
      · rw [div_le_one (by norm_num)]
        linarith [hn.2, hc.2]
    · rw [if_neg hct]
      simp only [List.map_append, List.map_cons, List.map_nil, List.sum_append,
        List.sum_cons, List.sum_nil]
      rw [if_pos (by norm_num : (0:ℚ) < 2 / 5 + 0 + (1 / 5 + 0) + (1 / 10 + 0))]
      constructor
      · apply div_nonneg
        · linarith [hn.1]
        · norm_num
      · rw [div_le_one (by norm_num)]
        linarith [hn.2]
  · rw [if_neg hsz]
    by_cases hct : file1.content_text ≠ ("") ∧ file2.content_text ≠ ("")
    · rw [if_pos hct]
      simp only [List.map_append, List.map_cons, List.map_nil, List.sum_append,
        List.sum_cons, List.sum_nil]
      rw [if_pos (by norm_num : (0:ℚ) < 2 / 5 + 0 + (1 / 10 + 0) + (3 / 10 + 0))]
      constructor
      · apply div_nonneg
        · linarith [hn.1, hc.1]
        · norm_num
      · rw [div_le_one (by norm_num)]
        linarith [hn.2, hc.2]
    · rw [if_neg hct]
      simp only [List.map_append, List.map_cons, List.map_nil, List.sum_append,
        List.sum_cons, List.sum_nil]
      rw [if_pos (by norm_num : (0:ℚ) < 2 / 5 + 0 + (1 / 10 + 0))]
      constructor
      · apply div_nonneg
        · linarith [hn.1]
        · norm_num
      · rw [div_le_one (by norm_num)]
        linarith [hn.2]

theorem similarity_refl (f : CFile) : calculate_file_similarity f f = 1 := by
  unfold calculate_file_similarity
  dsimp only
  rw [seqRatio_refl, ratio_refl, if_pos rfl]
  by_cases hsz : 0 < f.size ∧ 0 < f.size
  · rw [if_pos hsz]
    have hs : ((min f.size f.size : ℕ) : ℚ) / ((max f.size f.size : ℕ) : ℚ) = 1 := by
      rw [min_self, max_self]
      apply div_self
      have : f.size ≠ 0 := by omega
      exact_mod_cast this
    rw [hs]
    by_cases hct : f.content_text ≠ ("") ∧ f.content_text ≠ ("")
    · rw [if_pos hct]
      norm_num
    · rw [if_neg hct]
      norm_num
  · rw [if_neg hsz]
    by_cases hct : f.content_text ≠ ("") ∧ f.content_text ≠ ("")
    · rw [if_pos hct]
      norm_num
    · rw [if_neg hct]
      norm_num

/-- The concrete name-signal values behind the symmetry counterexample:
SequenceMatcher.ratio is order-dependent (its longest-block search prefers the
block starting earliest in the first sequence, and the recursion on the two
sides then finds different totals). -/
theorem seqRatio_abcb_bcab : seqRatio (lowerStr ("abcb")) (lowerStr ("bcab")) = 1 / 2 := by
  have hlow1 : lowerStr ("abcb") = ("abcb") := by decide
  have hlow2 : lowerStr ("bcab") = ("bcab") := by decide
  rw [hlow1, hlow2]
  have h : matchSum ("abcb".toList) ("bcab".toList) 0 ("abcb".toList.length) 0
      ("bcab".toList.length) = 2 := by decide
  unfold seqRatio ratio
  rw [h]
  norm_num

theorem seqRatio_bcab_abcb : seqRatio (lowerStr ("bcab")) (lowerStr ("abcb")) = 3 / 4 := by
  have hlow1 : lowerStr ("abcb") = ("abcb") := by decide
  have hlow2 : lowerStr ("bcab") = ("bcab") := by decide
  rw [hlow1, hlow2]
  have h : matchSum ("bcab".toList) ("abcb".toList) 0 ("bcab".toList.length) 0
      ("abcb".toList.length) = 3 := by decide
  unfold seqRatio ratio
  rw [h]
  norm_num

/-! ### Claim theorems -/
/-- Claim C1 (code bug, failing input): four records that share one similarity
hash but have two different sizes (10, 10, 20, 20).  _verify_duplicates groups
the bucket by size and then flattens the size groups back into one list, so
_find_exact_duplicates emits a single exact DuplicateGroup with confidence 1.0
whose members do not share an identical size, although the claim (and the spec
invariant) requires identical sizeBytes among members of an exact group. -/
theorem c1_exact_group_mixes_sizes :
    find_exact_duplicates
        [⟨("a.bin"), 10, 0, (".bin"), (""), some (md5 [1]), 0⟩,
         ⟨("b.bin"), 10, 0, (".bin"), (""), some (md5 [1]), 0⟩,
         ⟨("c.bin"), 20, 0, (".bin"), (""), some (md5 [1]), 0⟩,
         ⟨("d.bin"), 20, 0, (".bin"), (""), some (md5 [1]), 0⟩] =
      [⟨md5 [1],
        [⟨("a.bin"), 10, 0, (".bin"), (""), some (md5 [1]), 0⟩,
         ⟨("b.bin"), 10, 0, (".bin"), (""), some (md5 [1]), 0⟩,
         ⟨("c.bin"), 20, 0, (".bin"), (""), some (md5 [1]), 0⟩,
         ⟨("d.bin"), 20, 0, (".bin"), (""), some (md5 [1]), 0⟩],
        ("exact"), 1, ("keep_newest: a.bin")⟩] ∧
    (find_exact_duplicates
        [⟨("a.bin"), 10, 0, (".bin"), (""), some (md5 [1]), 0⟩,
         ⟨("b.bin"), 10, 0, (".bin"), (""), some (md5 [1]), 0⟩,
         ⟨("c.bin"), 20, 0, (".bin"), (""), some (md5 [1]), 0⟩,
         ⟨("d.bin"), 20, 0, (".bin"), (""), some (md5 [1]), 0⟩]).map
      (fun g => g.files.map (fun f => f.size)) = [[10, 10, 20, 20]] := by
  constructor <;> decide

/-- Claim C2 (code bug, failing input): a filename and extension that match no
keyword and no extension list give all-zero scores; best_category becomes the
string uncategorized, which is not a key of the scores dict, and the subscript
scores[best_category] raises KeyError instead of returning an Uncategorized
result. -/
theorem c2_all_zero_scores_keyerror :
    (categories.map (fun c =>
      category_score ((lowerStr ("mystery.xyz")).toList) (".xyz") c)) =
        [0, 0, 0, 0, 0, 0] ∧
    classify_file ("mystery.xyz") (".xyz") =
      Except.error ("KeyError: uncategorized") :=
  ⟨by decide, rfl⟩

/-- Claim C3 (confirmed): when the walk of the target directory yields no
entries -- which is what os.walk produces for a nonexistent or unreadable
path -- analyze_directory raises (a ValueError from building a thread pool over
the single empty chunk) before any per-file work, produces no file record and
returns no session. -/
theorem c3_missing_directory_errors (α : Type) (analyze : String → α) (chunk_size : Nat) :
    analyze_directory analyze chunk_size [] =
      Except.error ("ValueError: max_workers must be greater than 0") := by
  simp [analyze_directory, sort_by_size_desc, create_optimized_chunks, run_chunks,
    process_chunk]

/-- Claim C4 (counterexample): on a file that cannot be opened the fingerprint
routine does not fail with IOError as claimed; the except-branch returns the
fallback digest of path:size, a signature string like any other. -/
theorem c4_unopenable_file_returns_fallback :
    fingerprint_spec none ("x") 7 = Except.error ("IOError") ∧
    generate_similarity_hash none ("x") 7 = md5 (strBytes ("x:7")) :=
  ⟨rfl, rfl⟩

/-- Claim C4 (amended): for every path whose file cannot be opened,
_generate_similarity_hash returns the fallback signature md5(path:size)
rather than raising IOError; a content-derived signature is returned only when
the file can be read. -/
theorem c4_fallback_fingerprint (file_path : String) (file_size : Nat) :
    generate_similarity_hash none file_path file_size =
      md5 (strBytes (file_path ++ (":") ++ toString file_size)) := rfl

/-- Claim C5 (counterexample): similarity is not symmetric.  Two records whose
filenames are abcb and bcab, with size 0, equal extensions and empty content,
get similarity 0.6 one way and 0.8 the other, because SequenceMatcher.ratio is
order-dependent. -/
theorem c5_similarity_not_symmetric :
    calculate_file_similarity
        ⟨("abcb"), 0, 0, (".txt"), (""), none, 0⟩
        ⟨("bcab"), 0, 0, (".txt"), (""), none, 0⟩ = 3 / 5 ∧
    calculate_file_similarity
        ⟨("bcab"), 0, 0, (".txt"), (""), none, 0⟩
        ⟨("abcb"), 0, 0, (".txt"), (""), none, 0⟩ = 4 / 5 ∧
    calculate_file_similarity
        ⟨("abcb"), 0, 0, (".txt"), (""), none, 0⟩
        ⟨("bcab"), 0, 0, (".txt"), (""), none, 0⟩ ≠
      calculate_file_similarity
        ⟨("bcab"), 0, 0, (".txt"), (""), none, 0⟩
        ⟨("abcb"), 0, 0, (".txt"), (""), none, 0⟩ := by
  have h1 : calculate_file_similarity
      ⟨("abcb"), 0, 0, (".txt"), (""), none, 0⟩
      ⟨("bcab"), 0, 0, (".txt"), (""), none, 0⟩ = 3 / 5 := by
    unfold calculate_file_similarity
    rw [seqRatio_abcb_bcab]
    norm_num
  have h2 : calculate_file_similarity
      ⟨("bcab"), 0, 0, (".txt"), (""), none, 0⟩
      ⟨("abcb"), 0, 0, (".txt"), (""), none, 0⟩ = 4 / 5 := by
    unfold calculate_file_similarity
    rw [seqRatio_bcab_abcb]
    norm_num
  refine ⟨h1, h2, ?_⟩
  rw [h1, h2]
  norm_num

/-- Claim C5 (amended): the similarity score always lies in [0, 1] (missing
signals are dropped and the remaining weights renormalised) and
similarity(a, a) = 1.0; but symmetry fails in general, because the
edit-similarity ratio of the name and content signals is order-dependent. -/
theorem c5_similarity_refl_and_range (file1 file2 : CFile) :
    0 ≤ calculate_file_similarity file1 file2 ∧
    calculate_file_similarity file1 file2 ≤ 1 ∧
    calculate_file_similarity file1 file1 = 1 :=
  ⟨(similarity_range file1 file2).1, (similarity_range file1 file2).2,
    similarity_refl file1⟩

/-- A lookup whose metadata fingerprint matches no stored row returns none. -/
theorem latest_match_none {R : Type} (db : DB R) (p : String) (fh : SHA256)
    (h : ∀ row ∈ db.rows, ¬(row.filepath = p ∧ row.filehash = fh)) :
    latest_match db p fh = none := by
  unfold latest_match
  have hf : db.rows.filter (fun row => decide (row.filepath = p ∧ row.filehash = fh)) = [] := by
    rw [List.filter_eq_nil]
    intro row hrow
    simpa using h row hrow
  rw [hf]
  rfl

/-- Claim C6 (counterexample): the metadata fingerprint hashes the bare
concatenation str(st_mtime) + str(st_size), which is ambiguous: the stats
(mtime 1.5, size 23) and (mtime 1.52, size 3) both hash the string 1.523.
Storing a record under the first stat and then looking the path up after the
file changed to the second stat returns the stale record instead of absent. -/
theorem c6_metadata_change_collision :
    FileStat.mk ("1.5") 23 ≠ FileStat.mk ("1.52") 3 ∧
    file_hash (FileStat.mk ("1.5") 23) = file_hash (FileStat.mk ("1.52") 3) ∧
    save_file_result (fun p => if p = ("f") then some (FileStat.mk ("1.5") 23) else none)
        (emptyDB ℕ) ("f") 42 ("s1") =
      Except.ok ⟨[⟨("f"), file_hash (FileStat.mk ("1.5") 23), 42, ("s1"), 0⟩]⟩ ∧
    get_cached_file (fun p => if p = ("f") then some (FileStat.mk ("1.52") 3) else none)
        ⟨[⟨("f"), file_hash (FileStat.mk ("1.5") 23), 42, ("s1"), 0⟩]⟩ ("f") =
      Except.ok (some 42) :=
  ⟨by decide, rfl, rfl, rfl⟩

/-- Claim C6 (amended): after store(path, record) the next lookup with the
live metadata unchanged returns the stored record (the row just appended is
the most recent matching one); and a metadata change makes lookup return
absent provided the new metadata fingerprint matches no stored row for the
path -- the concatenated hash input str(modifiedAt) + str(sizeBytes) is
ambiguous, so distinct metadata pairs can collide and defeat the staleness
check. -/
theorem c6_cache_lookup_amended :
    (∀ (R : Type) (fs : String → Option FileStat) (db db2 : DB R) (p : String)
        (st : FileStat) (r : R) (sid : String),
      fs p = some st →
      save_file_result fs db p r sid = Except.ok db2 →
      get_cached_file fs db2 p = Except.ok (some r)) ∧
    (∀ (R : Type) (fs : String → Option FileStat) (db : DB R) (p : String)
        (st : FileStat),
      fs p = some st →
      (∀ row ∈ db.rows, row.filepath = p → row.filehash ≠ file_hash st) →
      get_cached_file fs db p = Except.ok none) := by
  constructor
  · intro R fs db db2 p st r sid hfs hsave
    unfold save_file_result at hsave
    rw [hfs] at hsave
    dsimp only at hsave
    cases hsave
    unfold get_cached_file latest_match
    rw [hfs]
    dsimp only
    rw [List.filter_append]
    have hrow : List.filter (fun row => decide (row.filepath = p ∧ row.filehash = file_hash st))
        [(⟨p, file_hash st, r, sid, db.rows.length⟩ : CacheRow R)] =
        [⟨p, file_hash st, r, sid, db.rows.length⟩] := by
      simp [List.filter]
    rw [hrow, List.getLast?_concat]
    rfl
  · intro R fs db p st hfs hmiss
    unfold get_cached_file
    rw [hfs]
    dsimp only
    rw [latest_match_none db p (file_hash st)
      (fun row hrow hc => hmiss row hrow hc.1 hc.2)]

theorem c6_cache_lookup_amended_witness :
    get_cached_file (fun _ => some (FileStat.mk ("1.0") 5))
        ⟨[⟨("g"), file_hash (FileStat.mk ("1.0") 5), 7, ("s"), 0⟩]⟩ ("g") =
      Except.ok (some 7) ∧
    get_cached_file (fun _ => some (FileStat.mk ("2.0") 9))
        ⟨[⟨("g"), file_hash (FileStat.mk ("1.0") 5), 7, ("s"), 0⟩]⟩ ("g") =
      Except.ok none := by
  constructor
  · exact c6_cache_lookup_amended.1 ℕ (fun _ => some (FileStat.mk ("1.0") 5))
      (emptyDB ℕ) ⟨[⟨("g"), file_hash (FileStat.mk ("1.0") 5), 7, ("s"), 0⟩]⟩
      ("g") (FileStat.mk ("1.0") 5) 7 ("s") rfl rfl
  · exact c6_cache_lookup_amended.2 ℕ (fun _ => some (FileStat.mk ("2.0") 9))
      ⟨[⟨("g"), file_hash (FileStat.mk ("1.0") 5), 7, ("s"), 0⟩]⟩
      ("g") (FileStat.mk ("2.0") 9) rfl (by decide)

/-- Claim C7 (counterexample): looking up a path whose file has vanished from
disk raises (get_cached_file stats the file before touching the table), instead
of returning absent as the claim states. -/
theorem c7_vanished_file_lookup_raises :
    get_cached_file (fun _ => none) (emptyDB ℕ) ("ghost") =
      Except.error ("FileNotFoundError") := rfl

/-- Claim C7 (amended): when the file can be stat-ed, lookup never errors: if
no stored row matches the current metadata fingerprint of the path it returns
absent (a cache miss); but when the file itself has vanished, the os.stat call
inside lookup raises instead of returning absent. -/
theorem c7_lookup_miss_amended (R : Type) (fs : String → Option FileStat)
    (db : DB R) (p : String) (st : FileStat)
    (hfs : fs p = some st)
    (hmiss : ∀ row ∈ db.rows, ¬(row.filepath = p ∧ row.filehash = file_hash st)) :
    get_cached_file fs db p = Except.ok none := by
  unfold get_cached_file
  rw [hfs]
  dsimp only
  rw [latest_match_none db p (file_hash st) hmiss]

theorem c7_lookup_miss_amended_witness :
    get_cached_file (fun _ => some (FileStat.mk ("3.5") 11))
        ⟨[⟨("h"), file_hash (FileStat.mk ("1.0") 5), 7, ("s"), 0⟩]⟩ ("h") =
      Except.ok none :=
  c7_lookup_miss_amended ℕ (fun _ => some (FileStat.mk ("3.5") 11))
    ⟨[⟨("h"), file_hash (FileStat.mk ("1.0") 5), 7, ("s"), 0⟩]⟩
    ("h") (FileStat.mk ("3.5") 11) rfl (by decide)

/-- Claim C8 (confirmed): the fingerprint of readable content hashes the whole
byte content when the size argument is below 1 MiB (1048576 bytes), and
otherwise hashes the string made of the size, the hex of the first 8 KiB and
the hex of the last 8 KiB of the content. -/
theorem c8_fingerprint_policy (data : List Nat) (file_path : String) (file_size : Nat) :
    (file_size < 1048576 →
      generate_similarity_hash (some data) file_path file_size = md5 data) ∧
    (1048576 ≤ file_size →
      generate_similarity_hash (some data) file_path file_size =
        md5 (strBytes (toString file_size ++ (":") ++ bytesHex (data.take 8192) ++ (":") ++
          bytesHex (data.drop (data.length - 8192))))) := by
  constructor
  · intro h
    unfold generate_similarity_hash
    dsimp only
    rw [if_pos (by omega : file_size < 1024 * 1024)]
  · intro h
    unfold generate_similarity_hash
    dsimp only
    rw [if_neg (by omega : ¬ file_size < 1024 * 1024)]

theorem c8_fingerprint_policy_witness :
    generate_similarity_hash (some [1, 2, 3]) ("p") 3 = md5 [1, 2, 3] ∧
    generate_similarity_hash (some [0, 255]) ("p") 1048576 =
      md5 (strBytes (("1048576") ++ (":") ++ ("00ff") ++ (":") ++ ("00ff"))) := by
  constructor
  · exact (c8_fingerprint_policy [1, 2, 3] ("p") 3).1 (by decide)
  · rw [(c8_fingerprint_policy [0, 255] ("p") 1048576).2 (by decide)]
    decide

/-- Claim C9 (code bug, failing input): the empty discovered file list (an
empty -- or missing -- directory).  _create_optimized_chunks returns a list
holding a single empty chunk instead of omitting it, and _process_chunk then
raises ValueError on that empty chunk, although the claim (and the spec error
taxonomy) requires every chunk to be non-empty, empty chunks being simply
omitted. -/
theorem c9_empty_walk_empty_chunk :
    create_optimized_chunks 100 [] = [[]] ∧
    process_chunk (fun p : String => p) [] =
      Except.error ("ValueError: max_workers must be greater than 0") :=
  ⟨rfl, rfl⟩

/-- Claim C10 (confirmed): the performance metrics persisted by save_analysis
are a function of files_processed and the random draw alone -- no measurement
of the actual cache activity reaches them -- hits equal the raw draw, misses
are the difference, and two draws that both lie in the randint range
[0, max(1, files_processed // 2)] but differ produce different persisted
metrics for identical inputs. -/
theorem c10_metrics_random (files_processed r1 r2 : ℕ)
    (h1 : r1 ≤ max 1 (files_processed / 2)) (h2 : r2 ≤ max 1 (files_processed / 2))
    (hne : r1 ≠ r2) :
    (save_analysis_metrics files_processed r1).cache_hits = r1 ∧
    (save_analysis_metrics files_processed r1).cache_misses =
      (files_processed : ℤ) - (r1 : ℤ) ∧
    save_analysis_metrics files_processed r1 ≠ save_analysis_metrics files_processed r2 := by
  refine ⟨rfl, rfl, ?_⟩
  intro he
  exact hne (congrArg SessionMetrics.cache_hits he)

theorem c10_metrics_random_witness :
    (save_analysis_metrics 2 0).cache_hits = 0 ∧
    (save_analysis_metrics 2 0).cache_misses = ((2 : ℕ) : ℤ) - ((0 : ℕ) : ℤ) ∧
    save_analysis_metrics 2 0 ≠ save_analysis_metrics 2 1 :=
  c10_metrics_random 2 0 1 (by decide) (by decide) (by decide)

theorem chunk_step_apply (cs : Nat) (thr : ℚ) (ch : List (List String))
    (cur : List String) (sz : ℕ) (fd : String × Nat) :
    chunk_step cs thr (ch, cur, sz) fd =
      if cs ≤ cur.length ∨ thr ≤ (sz : ℚ) then
        ((if cur.isEmpty then ch else ch ++ [cur]), [fd.1], fd.2)
      else (ch, cur ++ [fd.1], sz + fd.2) := rfl

theorem chunk_fold_join (cs : Nat) (thr : ℚ) :
    ∀ (l : List (String × Nat)) (ch : List (List String)) (cur : List String) (sz : ℕ),
      (l.foldl (chunk_step cs thr) (ch, cur, sz)).1.flatten ++
        (l.foldl (chunk_step cs thr) (ch, cur, sz)).2.1 =
      ch.flatten ++ cur ++ l.map (fun fd => fd.1) := by
  intro l
  induction l with
  | nil =>
    intro ch cur sz
    simp
  | cons fd l ih =>
    intro ch cur sz
    rw [List.foldl_cons, chunk_step_apply]
    split
    · rw [ih]
      by_cases hemp : cur.isEmpty
      · rw [if_pos hemp]
        rw [List.isEmpty_iff] at hemp
        subst hemp
        simp
      · rw [if_neg hemp]
        simp
    · rw [ih]
      simp

theorem chunk_fold_sizes (cs : Nat) (thr : ℚ) (hcs : 1 ≤ cs) :
    ∀ (l : List (String × Nat)) (ch : List (List String)) (cur : List String) (sz : ℕ),
      (∀ c ∈ ch, c ≠ [] ∧ c.length ≤ cs) → cur.length ≤ cs →
      (∀ c ∈ (l.foldl (chunk_step cs thr) (ch, cur, sz)).1, c ≠ [] ∧ c.length ≤ cs) ∧
      (l.foldl (chunk_step cs thr) (ch, cur, sz)).2.1.length ≤ cs ∧
      ((l.foldl (chunk_step cs thr) (ch, cur, sz)).2.1.isEmpty → l = [] ∧ cur.isEmpty) := by
  intro l
  induction l with
  | nil =>
    intro ch cur sz hch hcur
    exact ⟨hch, hcur, fun h => ⟨rfl, h⟩⟩
  | cons fd l ih =>
    intro ch cur sz hch hcur
    rw [List.foldl_cons, chunk_step_apply]
    split
    · have hch2 : ∀ c ∈ (if cur.isEmpty then ch else ch ++ [cur]), c ≠ [] ∧ c.length ≤ cs := by
        by_cases hemp : cur.isEmpty
        · rw [if_pos hemp]
          exact hch
        · rw [if_neg hemp]
          intro c hc
          rcases List.mem_append.mp hc with hc1 | hc2
          · exact hch c hc1
          · rw [List.mem_singleton.mp hc2]
            refine ⟨?_, hcur⟩
            intro hnil
            rw [hnil] at hemp
            exact hemp rfl
      have h2 := ih _ [fd.1] fd.2 hch2 (by simpa using hcs)
      exact ⟨h2.1, h2.2.1, fun h => absurd ((h2.2.2 h).2) (by simp)⟩
    · rename_i hemm
      have hlen : (cur ++ [fd.1]).length ≤ cs := by
        simp only [List.length_append, List.length_singleton]
        omega
      have h2 := ih ch (cur ++ [fd.1]) (sz + fd.2) hch hlen
      exact ⟨h2.1, h2.2.1, fun h => absurd ((h2.2.2 h).2) (by simp)⟩

theorem chunks_partition (cs : Nat) (l : List (String × Nat)) :
    (create_optimized_chunks cs l).flatten = l.map (fun fd => fd.1) := by
  unfold create_optimized_chunks
  split
  · simp
  · dsimp only
    have hj := chunk_fold_join cs
      (((l.map (fun fd => fd.2)).sum : ℕ) / ((l.length / cs + 1 : ℕ) : ℚ)) l [] [] 0
    split
    · rename_i hemp
      rw [List.isEmpty_iff] at hemp
      rw [hemp] at hj
      simpa using hj
    · rw [List.flatten_append]
      simpa using hj

theorem chunks_bounded (cs : Nat) (hcs : 1 ≤ cs) (l : List (String × Nat)) (hl : l ≠ []) :
    ∀ c ∈ create_optimized_chunks cs l, c ≠ [] ∧ c.length ≤ cs := by
  unfold create_optimized_chunks
  split
  · rename_i hlen
    intro c hc
    rw [List.mem_singleton.mp hc]
    constructor
    · simpa using hl
    · simpa using hlen
  · dsimp only
    have hs := chunk_fold_sizes cs
      (((l.map (fun fd => fd.2)).sum : ℕ) / ((l.length / cs + 1 : ℕ) : ℚ)) hcs l [] [] 0
      (by intro c hc; exact absurd hc (List.not_mem_nil c)) (by simp)
    split
    · rename_i hemp
      exact hs.1
    · rename_i hemp
      intro c hc
      rcases List.mem_append.mp hc with hc1 | hc2
      · exact hs.1 c hc1
      · rw [List.mem_singleton.mp hc2]
        refine ⟨?_, hs.2.1⟩
        intro hnil
        exact hemp (by rw [hnil]; rfl)

theorem run_chunks_ok (α : Type) (analyze : String → α) :
    ∀ (chunks : List (List String)), (∀ c ∈ chunks, c ≠ []) →
      ∃ rs, run_chunks analyze chunks = Except.ok rs ∧ rs.length = chunks.flatten.length := by
  intro chunks
  induction chunks with
  | nil =>
    intro _
    exact ⟨[], rfl, by simp⟩
  | cons c chunks ih =>
    intro hne
    obtain ⟨rs, hrs, hlen⟩ := ih (fun x hx => hne x (List.mem_cons_of_mem c hx))
    refine ⟨c.map analyze ++ rs, ?_, by simp [hlen]⟩
    unfold run_chunks process_chunk
    rw [if_neg (by
      intro h0
      exact hne c (List.mem_cons_self c chunks) (List.eq_nil_of_length_eq_zero h0))]
    rw [hrs]

theorem sort_by_size_desc_length (l : List (String × Nat)) :
    (sort_by_size_desc l).length = l.length := by
  unfold sort_by_size_desc
  induction l with
  | nil => rfl
  | cons x l ih =>
    rw [List.foldr_cons]
    have hins : ∀ (y : String × Nat) (m : List (String × Nat)),
        (insert_desc y m).length = m.length + 1 := by
      intro y m
      induction m with
      | nil => rfl
      | cons z m ihm =>
        unfold insert_desc
        split
        · simp
        · simpa using ihm
    rw [hins]
    rw [ih]
    simp

/-- The aggregate record count of a run equals the number of discovered files:
every chunk of a non-empty walk is non-empty, each chunk yields one record per
file, and the chunks partition the sorted walk. -/
theorem analyze_directory_aggregate (α : Type) (analyze : String → α) (cs : Nat)
    (hcs : 1 ≤ cs) (walk : List (String × Nat)) (hw : walk ≠ []) :
    ∃ rs, analyze_directory analyze cs walk = Except.ok rs ∧ rs.length = walk.length := by
  unfold analyze_directory
  have hsne : sort_by_size_desc walk ≠ [] := by
    intro h
    have := sort_by_size_desc_length walk
    rw [h] at this
    exact hw (List.eq_nil_of_length_eq_zero this.symm)
  obtain ⟨rs, hrs, hlen⟩ := run_chunks_ok α analyze
    (create_optimized_chunks cs (sort_by_size_desc walk))
    (fun c hc => (chunks_bounded cs hcs (sort_by_size_desc walk) hsne c hc).1)
  refine ⟨rs, hrs, ?_⟩
  rw [hlen, chunks_partition]
  rw [List.length_map, sort_by_size_desc_length]

/-- With 150 discovered files and chunk bound 100 at least two chunks arise. -/
theorem chunks_count_150 (walk : List (String × Nat)) (hw : walk.length = 150) :
    2 ≤ (create_optimized_chunks 100 (sort_by_size_desc walk)).length := by
  have hb := chunks_bounded 100 (by omega) (sort_by_size_desc walk)
    (by
      intro h
      have hl := sort_by_size_desc_length walk
      rw [h] at hl
      simp at hl
      omega)
  have hp := chunks_partition 100 (sort_by_size_desc walk)
  have hjoin : (create_optimized_chunks 100 (sort_by_size_desc walk)).flatten.length = 150 := by
    rw [hp, List.length_map, sort_by_size_desc_length, hw]
  have hcount : ∀ (chs : List (List String)), (∀ c ∈ chs, c.length ≤ 100) →
      chs.flatten.length ≤ 100 * chs.length := by
    intro chs
    induction chs with
    | nil => intro _; simp
    | cons c chs ihc =>
      intro hb2
      rw [List.flatten_cons, List.length_append, List.length_cons]
      have h1 := hb2 c (List.mem_cons_self c chs)
      have h2 := ihc (fun x hx => hb2 x (List.mem_cons_of_mem c hx))
      omega
  have := hcount (create_optimized_chunks 100 (sort_by_size_desc walk))
    (fun c hc => (hb c hc).2)
  omega

end SmartSort

